import Mathlib

/-!
# Verification of the void-desk back-end core

A shallow embedding of the Rust back-end of the void-desk IDE assistant
(`src-tauri/src`), together with proofs about the embedded definitions.

Conventions:
* Rust `String`/`str` content is modelled as `List Char`; byte streams as
  `List Nat` (each element < 256).
* Fallible Rust functions returning `anyhow::Result` are modelled as
  `Except E A` with a structured error type `E`; each error constructor
  corresponds to one `anyhow!` message in the source.
* External library behaviour (JSON parsing via `serde_json`, the filesystem)
  is abstracted into explicit oracle parameters; everything written in the
  repository itself is translated directly.
-/

set_option maxHeartbeats 1000000
set_option maxRecDepth 20000

namespace VoidDesk

/-! ## Character / string helpers (Rust primitives used by the source) -/

/-- Rust `char::is_whitespace`: the Unicode `White_Space` property. -/
def isRustWhitespace (c : Char) : Bool :=
  c.toNat ∈ [0x09, 0x0A, 0x0B, 0x0C, 0x0D, 0x20, 0x85, 0xA0, 0x1680,
    0x2000, 0x2001, 0x2002, 0x2003, 0x2004, 0x2005, 0x2006, 0x2007,
    0x2008, 0x2009, 0x200A, 0x2028, 0x2029, 0x202F, 0x205F, 0x3000]

/-- Rust `str::trim_start` on a character list. -/
def trimStart (s : List Char) : List Char :=
  s.dropWhile isRustWhitespace

/-- Rust `str::trim_end` on a character list. -/
def trimEnd (s : List Char) : List Char :=
  (s.reverse.dropWhile isRustWhitespace).reverse

/-- Rust `str::trim` on a character list. -/
def trimBoth (s : List Char) : List Char :=
  trimStart (trimEnd s)

/-- ASCII lowercase of one character (Rust `u8::to_ascii_lowercase`). -/
def asciiLower (c : Char) : Char :=
  if 'A' ≤ c ∧ c ≤ 'Z' then Char.ofNat (c.toNat + 32) else c

/-- Rust `str::eq_ignore_ascii_case`. -/
def eqIgnoreAsciiCase (a b : List Char) : Bool :=
  a.map asciiLower == b.map asciiLower

/-! ## Data model: `Message` (sdk/core/types.rs) -/

/-- `MessagePart` from `sdk/core/types.rs`. -/
inductive MessagePart where
  | text (text : List Char)
  | image (url : List Char)
  deriving DecidableEq, Repr

/-- `MessageContent` from `sdk/core/types.rs`. -/
inductive MessageContent where
  | plain (text : List Char)
  | multipart (parts : List MessagePart)
  deriving DecidableEq, Repr

/-- `ToolCallFunction` from `sdk/core/types.rs`. -/
structure ToolCallFunction where
  name : List Char
  arguments : List Char
  deriving DecidableEq, Repr

/-- `ToolCall` from `sdk/core/types.rs`; `kind` is the wire `"type"` field. -/
structure ToolCall where
  id : List Char
  kind : List Char
  function : ToolCallFunction
  deriving DecidableEq, Repr

/-- `ToolCall::new` from `sdk/core/types.rs`. -/
def ToolCall.new (id name arguments : List Char) : ToolCall :=
  { id := id, kind := "function".data, function := { name := name, arguments := arguments } }

/-- `Message` from `sdk/core/types.rs`. -/
structure Message where
  role : List Char
  content : Option MessageContent
  tool_calls : Option (List ToolCall)
  tool_call_id : Option (List Char)
  deriving DecidableEq, Repr

instance : Inhabited Message := ⟨⟨[], none, none, none⟩⟩

/-- `MessageContent::text` from `sdk/core/types.rs`. -/
def MessageContent.text : MessageContent → List Char
  | .plain t => t
  | .multipart parts => (parts.map fun p => match p with
      | .text t => t
      | .image _ => []).flatten

/-- `Message::text` from `sdk/core/types.rs`. -/
def Message.text (m : Message) : List Char :=
  match m.content with
  | some c => c.text
  | none => []

/-- `Message::system`. -/
def Message.system (t : List Char) : Message :=
  { role := "system".data, content := some (.plain t), tool_calls := none, tool_call_id := none }

/-- `Message::user`. -/
def Message.user (t : List Char) : Message :=
  { role := "user".data, content := some (.plain t), tool_calls := none, tool_call_id := none }

/-- `Message::assistant_text`. -/
def Message.assistant_text (t : List Char) : Message :=
  { role := "assistant".data
    content := if t.isEmpty then none else some (.plain t)
    tool_calls := none, tool_call_id := none }

/-- `Message::assistant_with_tool_calls`. -/
def Message.assistant_with_tool_calls
    (content : Option MessageContent) (tool_calls : List ToolCall) : Message :=
  { role := "assistant".data
    content := content
    tool_calls := if tool_calls.isEmpty then none else some tool_calls
    tool_call_id := none }

/-- `Message::tool_result`. -/
def Message.tool_result (tool_call_id content : List Char) : Message :=
  { role := "tool".data, content := some (.plain content)
    tool_calls := none, tool_call_id := some tool_call_id }

/-! ## Session store (sdk/session.rs)

`SessionStore` keeps a `HashMap<String, Session>` behind a lock; we model the
map as an association list (one entry per id, insertion order) and each
`async` operation as a pure state transformer.  Wall-clock times (`Utc::now`)
are passed in explicitly. -/

/-- `Session` from `sdk/session.rs`. -/
structure Session where
  id : List Char
  name : Option (List Char)
  messages : List Message
  created_at : Nat
  updated_at : Nat
  deriving DecidableEq, Repr

instance : Inhabited Session := ⟨⟨[], none, [], 0, 0⟩⟩

/-- The sessions map: one entry per session id. -/
abbrev SessionMap := List (List Char × Session)

/-- `HashMap::get` on the modelled map. -/
def mapGet (id : List Char) (m : SessionMap) : Option Session :=
  match m.find? (fun p => p.1 == id) with
  | some p => some p.2
  | none => none

/-- `HashMap::get_mut` followed by an in-place update: rewrite the entry with
key `id` through `f`, leaving the map unchanged when the key is absent. -/
def mapModify (id : List Char) (f : Session → Session) (m : SessionMap) : SessionMap :=
  m.map fun p => if p.1 == id then (p.1, f p.2) else p

/-- `SessionStore::create` (the caller-supplied-id case; a fresh UUID is just
another concrete id). -/
def SessionStore.create (id : List Char) (name : Option (List Char)) (now : Nat)
    (m : SessionMap) : Session × SessionMap :=
  let session : Session :=
    { id := id, name := name, messages := [], created_at := now, updated_at := now }
  (session, (id, session) :: m.filter (fun p => ¬(p.1 == id)))

/-- `SessionStore::get`. -/
def SessionStore.get (id : List Char) (m : SessionMap) : Option Session :=
  mapGet id m

/-- `SessionStore::append`. -/
def SessionStore.append (id : List Char) (message : Message) (now : Nat)
    (m : SessionMap) : SessionMap :=
  mapModify id (fun s => { s with messages := s.messages ++ [message], updated_at := now }) m

/-- `SessionStore::append_many`. -/
def SessionStore.append_many (id : List Char) (messages : List Message) (now : Nat)
    (m : SessionMap) : SessionMap :=
  mapModify id (fun s => { s with messages := s.messages ++ messages, updated_at := now }) m

/-- `SessionStore::replace_messages`. -/
def SessionStore.replace_messages (id : List Char) (messages : List Message) (now : Nat)
    (m : SessionMap) : SessionMap :=
  mapModify id (fun s => { s with messages := messages, updated_at := now }) m

/-- `SessionStore::set_name`. -/
def SessionStore.set_name (id : List Char) (name : Option (List Char)) (now : Nat)
    (m : SessionMap) : SessionMap :=
  mapModify id (fun s => { s with name := name, updated_at := now }) m

/-- `SessionStore::clear`. -/
def SessionStore.clear (id : List Char) (now : Nat) (m : SessionMap) : SessionMap :=
  mapModify id (fun s => { s with messages := [], updated_at := now }) m

/-- `SessionStore::delete` (`HashMap::remove`). -/
def SessionStore.delete (id : List Char) (m : SessionMap) : SessionMap :=
  m.filter (fun p => ¬(p.1 == id))

/-! ## Path sandbox (commands/ai_tools.rs)

Paths are modelled as component lists (the view Rust's `Path::components`
exposes; Windows `Prefix` components are absent on the POSIX paths modelled
here).  The filesystem (`Path::exists`, `Path::canonicalize`) is an explicit
oracle. -/

/-- One `std::path::Component`. -/
inductive PathComponent where
  | rootDir
  | curDir
  | parentDir
  | normal (name : List Char)
  deriving DecidableEq, Repr

/-- A path as its component list. -/
abbrev RPath := List PathComponent

/-- `Path::is_absolute` (POSIX: the path starts with the root directory). -/
def pathIsAbsolute (p : RPath) : Bool :=
  p.head? == some .rootDir

/-- The filesystem oracle: `Path::exists` and `Path::canonicalize`. -/
structure FileSystem where
  pathExists : RPath → Bool
  canonicalize : RPath → Option RPath

/-- Errors of the tool layer (`anyhow!` messages in `commands/ai_tools.rs`). -/
inductive ToolError where
  /-- "Invalid project root: _" -/
  | invalidRoot
  /-- "Invalid path: '_' is not a safe relative path" -/
  | notSafeRelative
  /-- "Access denied: Path '_' is outside the project root '_'" -/
  | outsideRoot
  /-- "Permission denied: '_' is a sensitive path. ..." -/
  | sensitivePath
  /-- "File already exists: '_'" (create mode) -/
  | fileExists
  /-- "File does not exist: '_'" (edit mode) -/
  | fileMissing
  /-- "content is required for create mode" / "... overwrite mode" -/
  | contentRequired
  /-- "edits are required for edit mode" -/
  | editsRequired
  /-- "edits cannot be empty for edit mode" -/
  | editsEmpty
  /-- "Edit _ has empty old_text; provide the exact text to replace" -/
  | emptyOldText (index : Nat)
  /-- "old_text matches _ locations; provide a more specific old_text" -/
  | matchesMultiple (n : Nat)
  /-- "old_text is empty after normalization" -/
  | emptyAfterNormalization
  /-- "old_text not found in file" -/
  | notFound
  /-- "old_text matched multiple locations (_); provide more context" -/
  | matchedMultipleWindows (n : Nat)
  /-- "Edit _ failed: _" (wrapper added by `execute_edit_file`) -/
  | editFailed (index : Nat) (e : ToolError)
  /-- "Conflicting edit ranges detected between edits _ and _" -/
  | conflict (i j : Nat)
  /-- "start_line must be >= 1" -/
  | startLineTooSmall
  /-- "end_line must be >= start_line" -/
  | endBeforeStart
  /-- "end_line _ is out of bounds (file has _ lines)" -/
  | endOutOfBounds (endLine total : Nat)
  deriving DecidableEq, Repr

deriving instance DecidableEq for Except

/-- `resolve_and_validate_path` from `commands/ai_tools.rs` (lines 72-110).
`Path::starts_with` compares whole components, which on component lists is
the list-prefix test. -/
def resolve_and_validate_path (fs : FileSystem) (root target : RPath) :
    Except ToolError RPath :=
  match fs.canonicalize root with
  | none => .error .invalidRoot
  | some root_path =>
    let target_is_absolute := pathIsAbsolute target
    if ¬target_is_absolute ∧
        target.any (fun c => c = .parentDir ∨ c = .rootDir) then
      .error .notSafeRelative
    else
      let target_path := if target_is_absolute then target else root_path ++ target
      if fs.pathExists target_path then
        match fs.canonicalize target_path with
        | some canonical_target =>
          if root_path.isPrefixOf canonical_target then .ok canonical_target
          else .error .outsideRoot
        | none => .error .outsideRoot
      else if root_path.isPrefixOf target_path then
        .ok target_path
      else
        .error .outsideRoot

/-- Purely lexical path resolution (what a `..` component denotes on a
symlink-free filesystem): used to state where an accepted path actually
points. -/
def lexResolve (p : RPath) : RPath :=
  p.foldl (fun acc c =>
    match c with
    | .rootDir => acc ++ [.rootDir]
    | .curDir => acc
    | .parentDir =>
      match acc.getLast? with
      | some (.normal _) => acc.dropLast
      | _ => acc
    | .normal n => acc ++ [.normal n]) []

/-- `Path::file_name` (the final `Normal` component), with the
`unwrap_or("")` applied by `is_sensitive_path`. -/
def fileNameOf (p : RPath) : List Char :=
  match p.getLast? with
  | some (.normal n) => n
  | _ => []

/-- The `sensitive_dirs` array in `is_sensitive_path`. -/
def sensitiveDirs : List (List Char) := [".git".data, ".ssh".data, ".gnupg".data]

/-- The `sensitive_files` array in `is_sensitive_path`. -/
def sensitiveFiles : List (List Char) :=
  ["tauri.conf.json".data, "id_rsa".data, "id_ed25519".data]

/-- `is_sensitive_path` from `commands/ai_tools.rs` (lines 112-137).
Rust lowercases the file name with `str::to_lowercase` before the
`".env."` prefix test; on the ASCII-relevant cases this is `asciiLower`. -/
def is_sensitive_path (p : RPath) : Bool :=
  let fileName := fileNameOf p
  if eqIgnoreAsciiCase fileName ".env".data
      || (".env.".data).isPrefixOf (fileName.map asciiLower)
      || sensitiveFiles.any (fun n => eqIgnoreAsciiCase fileName n) then
    true
  else
    p.any (fun c =>
      match c with
      | .normal name => sensitiveDirs.any (fun d => eqIgnoreAsciiCase name d)
      | _ => false)

/-- `ensure_not_sensitive` from `commands/ai_tools.rs` (lines 139-152). -/
def ensure_not_sensitive (p : RPath) (allow_sensitive : Bool) :
    Except ToolError Unit :=
  if allow_sensitive then .ok ()
  else if is_sensitive_path p then .error .sensitivePath
  else .ok ()

/-! ## `read_file` (commands/ai_tools.rs, `ReadFileTool::run`)

The file's UTF-8 content is passed in directly (the `fs::read_to_string`
oracle); everything from line splitting onward is the source logic. -/

/-- Rust `str::split('\n')` on a character list (always non-empty). -/
def splitOnNl : List Char → List (List Char)
  | [] => [[]]
  | c :: rest =>
    if c = '\n' then [] :: splitOnNl rest
    else
      match splitOnNl rest with
      | l :: ls => (c :: l) :: ls
      | [] => [[c]]

/-- `content.contains("\r\n")`. -/
def hasCRLF : List Char → Bool
  | '\r' :: '\n' :: _ => true
  | _ :: rest => hasCRLF rest
  | [] => false

/-- `line.strip_suffix('\r').unwrap_or(line)`. -/
def stripSuffixCR (l : List Char) : List Char :=
  if l.getLast? == some '\r' then l.dropLast else l

/-- `Vec::join` with a separator. -/
def joinSep (sep : List Char) : List (List Char) → List Char
  | [] => []
  | [l] => l
  | l :: rest => l ++ sep ++ joinSep sep rest

/-- Output of a successful `read_file` run (the JSON payload's fields). -/
structure ReadOutput where
  content : List Char
  start_line : Nat
  end_line : Nat
  total_lines : Nat
  deriving DecidableEq, Repr

/-- The pure core of `ReadFileTool::run` (lines 212-258): line splitting,
defaulting and bounds checks on an already-read file `content`.  The
`start_line`/`end_line` arguments are the optional `u32` tool inputs. -/
def read_file_lines (content : List Char)
    (start_line? end_line? : Option Nat) : Except ToolError ReadOutput :=
  let uses_crlf := hasCRLF content
  let line_ending : List Char := if uses_crlf then ['\r', '\n'] else ['\n']
  let lines := (splitOnNl content).map
    (fun line => if uses_crlf then stripSuffixCR line else line)
  let total_lines := max lines.length 1
  let start_line := start_line?.getD 1
  let end_line := end_line?.getD total_lines
  if start_line < 1 then .error .startLineTooSmall
  else if end_line < start_line then .error .endBeforeStart
  else if end_line > total_lines then .error (.endOutOfBounds end_line total_lines)
  else
    let start_idx := start_line - 1
    let selected := joinSep line_ending ((lines.drop start_idx).take (end_line - start_idx))
    .ok { content := selected, start_line := start_line, end_line := end_line
          total_lines := total_lines }

/-! ## Fuzzy multi-edit engine (commands/ai_tools.rs, lines 502-629, 831-887) -/

/-- `EditOperation` from `commands/ai_tools.rs`. -/
structure EditOperation where
  old_text : List Char
  new_text : List Char
  deriving DecidableEq, Repr

/-- Worker of `str::match_indices`: successive non-overlapping matches of a
non-empty pattern, scanning left to right.  Fuel is the remaining haystack
length (each step consumes at least one character). -/
def matchIndicesGo (pat : List Char) : Nat → List Char → Nat → List Nat
  | 0, _, _ => []
  | _ + 1, [], _ => []
  | fuel + 1, c :: rest, i =>
    if pat.isPrefixOf (c :: rest) then
      i :: matchIndicesGo pat fuel ((c :: rest).drop pat.length) (i + pat.length)
    else matchIndicesGo pat fuel rest (i + 1)

/-- `content.match_indices(pat)` (positions only).  An empty pattern matches
at every position, as in Rust. -/
def matchIndices (content pat : List Char) : List Nat :=
  if pat.isEmpty then List.range (content.length + 1)
  else matchIndicesGo pat content.length content 0

/-- Worker of `compute_line_starts`: positions just after each `'\n'`. -/
def lineStartsGo : List Char → Nat → List Nat
  | [], _ => []
  | c :: rest, i =>
    if c = '\n' then (i + 1) :: lineStartsGo rest (i + 1)
    else lineStartsGo rest (i + 1)

/-- `compute_line_starts` from `commands/ai_tools.rs` (lines 604-612). -/
def compute_line_starts (content : List Char) : List Nat :=
  0 :: lineStartsGo content 0

/-- Character loop of `normalize_text` (the `last_was_space` state machine). -/
def normalizeGo : List Char → Bool → List Char
  | [], _ => []
  | c :: rest, lastWasSpace =>
    if isRustWhitespace c then
      if ¬lastWasSpace then ' ' :: normalizeGo rest true
      else normalizeGo rest true
    else c :: normalizeGo rest false

/-- `normalize_text` from `commands/ai_tools.rs` (lines 614-629): collapse
whitespace runs to single spaces, then trim both ends. -/
def normalize_text (t : List Char) : List Char :=
  trimBoth (normalizeGo t false)

/-- The fuzzy (whitespace-normalised) window matches of
`resolve_edit_range`: for each window of `old_lines.length` consecutive
lines whose normalised join equals the normalised `old_text`, the byte range
from the start of its first line to the start of the following line (or to
end of file). -/
def fuzzyMatches (content old_text : List Char) : List (Nat × Nat) :=
  let lines := splitOnNl content
  let old_lines := splitOnNl old_text
  let line_starts := compute_line_starts content
  let normalized_old := normalize_text old_text
  ((List.range (lines.length - old_lines.length + 1)).filter
    (fun i =>
      normalize_text (joinSep ['\n'] ((lines.drop i).take old_lines.length))
        == normalized_old)).map
    (fun i =>
      (line_starts.getD i 0,
       if i + old_lines.length < line_starts.length then
         line_starts.getD (i + old_lines.length) 0
       else content.length))

/-- `resolve_edit_range` from `commands/ai_tools.rs` (lines 546-602). -/
def resolve_edit_range (content : List Char) (edit : EditOperation) :
    Except ToolError (Nat × Nat) :=
  let exact_matches := matchIndices content edit.old_text
  match exact_matches with
  | [s] => .ok (s, s + edit.old_text.length)
  | _ :: _ :: _ => .error (.matchesMultiple exact_matches.length)
  | [] =>
    let normalized_old := normalize_text edit.old_text
    if normalized_old.isEmpty then .error .emptyAfterNormalization
    else
      let lines := splitOnNl content
      let old_lines := splitOnNl edit.old_text
      if old_lines.isEmpty ∨ lines.length < old_lines.length then .error .notFound
      else
        match fuzzyMatches content edit.old_text with
        | [] => .error .notFound
        | [r] => .ok r
        | _ :: _ :: _ =>
          .error (.matchedMultipleWindows (fuzzyMatches content edit.old_text).length)

/-- `ResolvedEdit` from `commands/ai_tools.rs` (`range.start`/`range.end`
become `start`/`stop`). -/
structure ResolvedEdit where
  index : Nat
  start : Nat
  stop : Nat
  old_text : List Char
  new_text : List Char
  deriving DecidableEq, Repr

/-- The resolution loop of `execute_edit_file` (edit mode, lines 845-861):
reject whitespace-only `old_text`, resolve each pair, wrap failures with the
edit index. -/
def resolveEditsGo (content : List Char) :
    List (Nat × EditOperation) → Except ToolError (List ResolvedEdit)
  | [] => .ok []
  | (index, edit) :: rest =>
    if (trimBoth edit.old_text).isEmpty then .error (.emptyOldText index)
    else
      match resolve_edit_range content edit with
      | .error e => .error (.editFailed index e)
      | .ok (s, e) =>
        match resolveEditsGo content rest with
        | .error err => .error err
        | .ok rs =>
          .ok ({ index := index, start := s, stop := e
                 old_text := edit.old_text, new_text := edit.new_text } :: rs)

/-- Stable insertion step for `sort_by_key(range.start)`. -/
def insertByStart (x : ResolvedEdit) : List ResolvedEdit → List ResolvedEdit
  | [] => [x]
  | y :: ys => if y.start < x.start then y :: insertByStart x ys else x :: y :: ys

/-- Rust's stable `sort_by_key(|e| e.range.start)`. -/
def sortByStart : List ResolvedEdit → List ResolvedEdit
  | [] => []
  | x :: xs => insertByStart x (sortByStart xs)

/-- The conflict scan of `execute_edit_file` (lines 864-874): the first
consecutive pair of the start-sorted edits whose ranges overlap, as the pair
of original edit indices. -/
def findConflict : List ResolvedEdit → Option (Nat × Nat)
  | a :: b :: rest =>
    if a.stop > b.start then some (a.index, b.index) else findConflict (b :: rest)
  | _ => none

/-- `String::replace_range` on a character list. -/
def replaceRange (content : List Char) (s e : Nat) (t : List Char) : List Char :=
  content.take s ++ t ++ content.drop e

/-- The application loop of `execute_edit_file` (lines 876-880): apply the
edits by `replace_range` in decreasing order of start offset.  Rust re-sorts
the already start-sorted list with a stable sort by `Reverse(start)`; after
the conflict scan the starts are strictly increasing, so that descending
order is exactly the reversed list. -/
def applyResolved (content : List Char) (sorted : List ResolvedEdit) : List Char :=
  sorted.reverse.foldl (fun c e => replaceRange c e.start e.stop e.new_text) content

/-- The pure core of `execute_edit_file` in edit mode (lines 831-887), from
the non-emptiness check on `edits` to the updated file content. -/
def apply_edits (content : List Char) (edits : List EditOperation) :
    Except ToolError (List Char) :=
  if edits.isEmpty then .error .editsEmpty
  else
    match resolveEditsGo content edits.enum with
    | .error e => .error e
    | .ok resolved =>
      let sorted := sortByStart resolved
      match findConflict sorted with
      | some (i, j) => .error (.conflict i j)
      | none => .ok (applyResolved content sorted)

/-- Spec-side description of the edited file: the original content outside
the (ascending, disjoint) resolved ranges, with each range replaced by its
`new_text`.  `off` is the cursor into the original content. -/
def spliceEdits (content : List Char) : Nat → List ResolvedEdit → List Char
  | off, [] => content.drop off
  | off, e :: rest =>
    (content.take e.start).drop off ++ e.new_text ++ spliceEdits content e.stop rest

/-- Spec-side occurrence positions of `pat` in `content`: every position
whose suffix begins with `pat` (overlapping occurrences included).  Used to
compare the spec's "exact substring matches" with Rust's non-overlapping
`match_indices` scan. -/
def occurrencePositions (content pat : List Char) : List Nat :=
  (List.range (content.length + 1)).filter (fun i => pat.isPrefixOf (content.drop i))

/-! ## SSE stream parser (sdk/stream/parse.rs)

The parser is modelled over character chunks (`String::from_utf8_lossy` of
each byte chunk is applied first, see `utf8Lossy` below).  JSON parsing of a
`data:` payload (`serde_json::from_str::<ResponseStreamResult>`, including
the custom `deserialize_delta_content` extraction) is an oracle
`dec : List Char → Option RSResult`.  The accumulator `HashMap` is modelled
by an insertion-ordered association list for its contents, plus an
enumeration parameter `reorder` applied when `flush_tool_calls` iterates
`accumulators.values()`: Rust's `HashMap` iteration order is unspecified, so
any permutation is an admissible enumeration. -/

/-- `ToolCallFunctionChunk` from `sdk/core/types.rs`. -/
structure ToolCallFunctionChunk where
  name : Option (List Char)
  arguments : Option (List Char)
  deriving DecidableEq, Repr

/-- `ToolCallChunk` from `sdk/core/types.rs`. -/
structure ToolCallChunk where
  index : Option Nat
  id : Option (List Char)
  function : Option ToolCallFunctionChunk
  deriving DecidableEq, Repr

/-- `ResponseMessageDelta` from `sdk/core/types.rs`.  The `content` field
holds the text already extracted by `deserialize_delta_content` (string,
part array or nested object reduced to one string during deserialisation). -/
structure RSDelta where
  content : Option (List Char)
  text : Option (List Char)
  reasoning : Option (List Char)
  reasoning_content : Option (List Char)
  tool_calls : Option (List ToolCallChunk)
  deriving DecidableEq, Repr

/-- `ResponseStreamChoice` from `sdk/core/types.rs`. -/
structure RSChoice where
  delta : Option RSDelta
  message : Option Message
  finish_reason : Option (List Char)
  deriving DecidableEq, Repr

/-- `ResponseStreamError` (only the field the parser reads). -/
structure RSError where
  message : Option (List Char)
  deriving DecidableEq, Repr

/-- `ResponseStreamResult` (only the fields the parser reads). -/
structure RSResult where
  choices : List RSChoice
  error : Option RSError
  deriving DecidableEq, Repr

/-- `StreamEvent` from `sdk/core/events.rs`. -/
inductive StreamEvent where
  | textDelta (t : List Char)
  | toolCall (id name arguments : List Char)
  | raw (data : List Char)
  | done
  deriving DecidableEq, Repr

/-- One item of the parser's output stream: an event, or an error item
(`Err(anyhow!(..))` in the source). -/
inductive StreamItem where
  | ev (e : StreamEvent)
  /-- "Failed to parse SSE json: _" -/
  | jsonParseError
  /-- "Stream error: _" for a payload carrying an `error` field. -/
  | streamError (message : Option (List Char))
  deriving DecidableEq, Repr

/-- `ToolCallAccumulator` from `sdk/stream/parse.rs`. -/
structure ToolCallAccumulator where
  id : List Char
  name : List Char
  arguments : List Char
  deriving DecidableEq, Repr

instance : Inhabited ToolCallAccumulator := ⟨⟨[], [], []⟩⟩

/-- The accumulator map contents, in insertion order. -/
abbrev AccList := List (List Char × ToolCallAccumulator)

/-- `HashMap::entry(key).or_insert_with(init)` followed by an update `f` of
the entry: modify the existing entry, or append a new one. -/
def entryUpdate (accs : AccList) (key : List Char) (init : ToolCallAccumulator)
    (f : ToolCallAccumulator → ToolCallAccumulator) : AccList :=
  if accs.any (fun p => p.1 == key) then
    accs.map (fun p => if p.1 == key then (p.1, f p.2) else p)
  else accs ++ [(key, f init)]

/-- The per-entry mutation shared by both accumulate functions (lines
173-182 and 205-214). -/
def accApply (id name arguments : List Char) (entry : ToolCallAccumulator) :
    ToolCallAccumulator :=
  let entry := if id ≠ [] then { entry with id := id } else entry
  let entry := if name ≠ [] then { entry with name := name } else entry
  if arguments ≠ [] then { entry with arguments := entry.arguments ++ arguments }
  else entry

/-- `accumulate_tool_call_chunks` from `sdk/stream/parse.rs` (lines 143-183). -/
def accumulateChunks (tool_calls : List ToolCallChunk) (accs : AccList) : AccList :=
  tool_calls.foldl (fun accs tc =>
    let index := tc.index.getD 0
    let id := tc.id.getD []
    let name := (tc.function.bind (fun f => f.name)).getD []
    let arguments := (tc.function.bind (fun f => f.arguments)).getD []
    let key := if id ≠ [] then id else "index:".data ++ (toString index).data
    entryUpdate accs key { id := id, name := name, arguments := [] }
      (accApply id name arguments)) accs

/-- `accumulate_tool_call_messages` from `sdk/stream/parse.rs` (lines
185-215). -/
def accumulateMessages (tool_calls : List ToolCall) (accs : AccList) : AccList :=
  tool_calls.foldl (fun accs tc =>
    let id := tc.id
    let name := tc.function.name
    let arguments := tc.function.arguments
    let key := if id ≠ [] then id else "name:".data ++ name
    entryUpdate accs key { id := id, name := name, arguments := [] }
      (accApply id name arguments)) accs

/-- `flush_tool_calls` from `sdk/stream/parse.rs` (lines 217-235): one
`ToolCall` event per accumulator with a non-empty name, enumerated in the
`HashMap`'s value-iteration order `reorder`. -/
def flushToolCalls (reorder : AccList → AccList) (accs : AccList) : List StreamItem :=
  if accs.isEmpty then []
  else (reorder accs).filterMap (fun p =>
    if p.2.name ≠ [] then some (.ev (.toolCall p.2.id p.2.name p.2.arguments))
    else none)

/-- The parser's per-line mutable state (`accumulators`, `saw_finish`). -/
structure ParserAccState where
  accs : AccList
  sawFinish : Bool
  deriving DecidableEq, Repr

/-- Text-delta emission: `if let Some(t) = _ { if !t.is_empty() { push } }`. -/
def optTextEvent (o : Option (List Char)) : List StreamItem :=
  match o with
  | some t => if t ≠ [] then [.ev (.textDelta t)] else []
  | none => []

/-- The text-delta events of one delta object (lines 90-109). -/
def deltaEvents (delta : RSDelta) : List StreamItem :=
  optTextEvent delta.content ++ optTextEvent delta.text
    ++ optTextEvent delta.reasoning ++ optTextEvent delta.reasoning_content

/-- The accumulator feed of the delta block (lines 110-112). -/
def choiceAccsDelta (delta? : Option RSDelta) (accs : AccList) : AccList :=
  match delta? with
  | none => accs
  | some delta =>
    match delta.tool_calls with
    | some tcs => accumulateChunks tcs accs
    | none => accs

/-- The accumulator feed of the terminal-message block (lines 120-122). -/
def choiceAccsMessage (message? : Option Message) (accs : AccList) : AccList :=
  match message? with
  | none => accs
  | some msg =>
    match msg.tool_calls with
    | some tcs => accumulateMessages tcs accs
    | none => accs

/-- The events of the delta block of one choice. -/
def choiceEvsDelta (delta? : Option RSDelta) : List StreamItem :=
  match delta? with
  | none => []
  | some delta => deltaEvents delta

/-- The events of the terminal-message block of one choice (lines
115-119). -/
def choiceEvsMessage (message? : Option Message) : List StreamItem :=
  match message? with
  | none => []
  | some msg => if msg.text ≠ [] then [StreamItem.ev (.textDelta msg.text)] else []

/-- The body of `for choice in result.choices` (lines 88-130).  The
delta/message blocks only push text events and feed the accumulators; the
finish check then flushes.  (`saw_finish` is untouched by the first two
blocks, so testing the incoming `st.sawFinish` is the source's check.) -/
def processChoice (reorder : AccList → AccList) (st : ParserAccState)
    (choice : RSChoice) : ParserAccState × List StreamItem :=
  let evs := choiceEvsDelta choice.delta ++ choiceEvsMessage choice.message
  let accs2 := choiceAccsMessage choice.message (choiceAccsDelta choice.delta st.accs)
  if choice.finish_reason.isSome ∧ ¬st.sawFinish then
    (⟨[], true⟩, evs ++ flushToolCalls reorder accs2 ++ [.ev .done])
  else
    (⟨accs2, st.sawFinish⟩, evs)

/-- The `data:` prefix handling at the top of the line loop (lines 40-48):
trim the end of the line and strip the payload prefix. -/
def dataOfLine (rawLine : List Char) : Option (List Char) :=
  let line := trimEnd rawLine
  if ("data: ".data).isPrefixOf line then some (line.drop 6)
  else if ("data:".data).isPrefixOf line then some (trimStart (line.drop 5))
  else none

/-- Processing of one non-empty `data:` payload (lines 50-131): handle
`[DONE]`, decode the JSON payload, report its `error` field, or walk its
choices. -/
def processData (dec : List Char → Option RSResult) (reorder : AccList → AccList)
    (debug_raw : Bool) (st : ParserAccState) (data : List Char) :
    ParserAccState × List StreamItem :=
  if data.isEmpty then (st, [])
  else
    let rawEvs : List StreamItem := if debug_raw then [.ev (.raw data)] else []
    if data = "[DONE]".data then
      if ¬st.sawFinish then
        (⟨[], true⟩, rawEvs ++ flushToolCalls reorder st.accs ++ [.ev .done])
      else (st, rawEvs)
    else
      match dec data with
      | none => (st, rawEvs ++ [.jsonParseError])
      | some result =>
        match result.error with
        | some err => (st, rawEvs ++ [.streamError err.message])
        | none =>
          result.choices.foldl (fun sa choice =>
            let pc := processChoice reorder sa.1 choice
            (pc.1, sa.2 ++ pc.2)) (st, rawEvs)

/-- Processing of one complete line of the SSE stream (lines 40-131). -/
def processLine (dec : List Char → Option RSResult) (reorder : AccList → AccList)
    (debug_raw : Bool) (st : ParserAccState) (rawLine : List Char) :
    ParserAccState × List StreamItem :=
  match dataOfLine rawLine with
  | none => (st, [])
  | some data => processData dec reorder debug_raw st data

/-- `text.replace("\r\n", "\n")`: left-to-right non-overlapping replacement
(a `\r` immediately followed by `\n` becomes a single `\n`). -/
def replaceCRLF : List Char → List Char
  | [] => []
  | c :: rest =>
    match rest with
    | d :: rest' =>
      if c = '\r' ∧ d = '\n' then '\n' :: replaceCRLF rest'
      else c :: replaceCRLF (d :: rest')
    | [] => [c]

/-- Split a buffer into its newline-terminated lines (without the
terminator) and the remainder after the last `'\n'`.  The source's
`while let Some(pos) = buffer.find('\n')` loop peels exactly these lines
off, in this order, processing each as it goes. -/
def splitComplete : List Char → List (List Char) × List Char
  | [] => ([], [])
  | c :: rest =>
    if c = '\n' then
      let (ls, r) := splitComplete rest
      ([] :: ls, r)
    else
      let (ls, r) := splitComplete rest
      match ls with
      | [] => ([], c :: r)
      | l :: ls' => ((c :: l) :: ls', r)

/-- Process a list of complete lines in order, threading the accumulator
state and concatenating emitted items. -/
def runLines (dec : List Char → Option RSResult) (reorder : AccList → AccList)
    (debug_raw : Bool) (st : ParserAccState) (lines : List (List Char)) :
    ParserAccState × List StreamItem :=
  lines.foldl (fun sa line =>
    let (st', evs') := processLine dec reorder debug_raw sa.1 line
    (st', sa.2 ++ evs')) (st, [])

/-- The full parser state: the line buffer plus the accumulator state. -/
structure ParserState where
  buffer : List Char
  accState : ParserAccState
  deriving DecidableEq, Repr

/-- The parser's initial state. -/
def initParserState : ParserState := ⟨[], ⟨[], false⟩⟩

/-- One iteration of the `flat_map` closure (lines 32-139) on an `Ok`
chunk already decoded to characters: CRLF-normalise, append to the buffer,
process every newline-terminated line. -/
def feedChunk (dec : List Char → Option RSResult) (reorder : AccList → AccList)
    (debug_raw : Bool) (st : ParserState) (chunkText : List Char) :
    ParserState × List StreamItem :=
  let combined := st.buffer ++ replaceCRLF chunkText
  let split := splitComplete combined
  let run := runLines dec reorder debug_raw st.accState split.1
  (⟨split.2, run.1⟩, run.2)

/-- Run the parser over a sequence of character chunks, collecting the
emitted stream items (`parse_sse_stream_with_debug` for a stream of `Ok`
chunks).  Anything left in the buffer when the byte stream ends is dropped,
as in the source. -/
def parseCharChunks (dec : List Char → Option RSResult) (reorder : AccList → AccList)
    (debug_raw : Bool) (chunks : List (List Char)) : List StreamItem :=
  (chunks.foldl (fun sa c =>
    let (st', evs') := feedChunk dec reorder debug_raw sa.1 c
    (st', sa.2 ++ evs')) (initParserState, [])).2

/-! ### UTF-8: `String::from_utf8_lossy` applied per chunk -/

/-- Is `b` a UTF-8 continuation byte (`0x80..=0xBF`)? -/
def isCont (b : Nat) : Bool := 0x80 ≤ b ∧ b ≤ 0xBF

/-- `String::from_utf8_lossy` (the WHATWG "maximal subpart" policy Rust
implements): invalid or truncated sequences become U+FFFD.  Fuel is the
input length; every step consumes at least one byte. -/
def utf8LossyGo : Nat → List Nat → List Char
  | 0, _ => []
  | _ + 1, [] => []
  | fuel + 1, b0 :: rest =>
    if b0 < 0x80 then Char.ofNat b0 :: utf8LossyGo fuel rest
    else if 0xC2 ≤ b0 ∧ b0 ≤ 0xDF then
      match rest with
      | b1 :: rest' =>
        if isCont b1 then
          Char.ofNat ((b0 - 0xC0) * 64 + (b1 - 0x80)) :: utf8LossyGo fuel rest'
        else '�' :: utf8LossyGo fuel rest
      | [] => ['�']
    else if 0xE0 ≤ b0 ∧ b0 ≤ 0xEF then
      match rest with
      | b1 :: rest' =>
        if (b0 = 0xE0 ∧ 0xA0 ≤ b1 ∧ b1 ≤ 0xBF)
            ∨ (0xE1 ≤ b0 ∧ b0 ≤ 0xEC ∧ isCont b1)
            ∨ (b0 = 0xED ∧ 0x80 ≤ b1 ∧ b1 ≤ 0x9F)
            ∨ (0xEE ≤ b0 ∧ b0 ≤ 0xEF ∧ isCont b1) then
          match rest' with
          | b2 :: rest'' =>
            if isCont b2 then
              Char.ofNat ((b0 - 0xE0) * 4096 + (b1 - 0x80) * 64 + (b2 - 0x80))
                :: utf8LossyGo fuel rest''
            else '�' :: utf8LossyGo fuel rest'
          | [] => ['�']
        else '�' :: utf8LossyGo fuel rest
      | [] => ['�']
    else if 0xF0 ≤ b0 ∧ b0 ≤ 0xF4 then
      match rest with
      | b1 :: rest' =>
        if (b0 = 0xF0 ∧ 0x90 ≤ b1 ∧ b1 ≤ 0xBF)
            ∨ (0xF1 ≤ b0 ∧ b0 ≤ 0xF3 ∧ isCont b1)
            ∨ (b0 = 0xF4 ∧ 0x80 ≤ b1 ∧ b1 ≤ 0x8F) then
          match rest' with
          | b2 :: rest'' =>
            if isCont b2 then
              match rest'' with
              | b3 :: rest''' =>
                if isCont b3 then
                  Char.ofNat ((b0 - 0xF0) * 262144 + (b1 - 0x80) * 4096
                      + (b2 - 0x80) * 64 + (b3 - 0x80))
                    :: utf8LossyGo fuel rest'''
                else '�' :: utf8LossyGo fuel rest''
              | [] => ['�']
            else '�' :: utf8LossyGo fuel rest'
          | [] => ['�']
        else '�' :: utf8LossyGo fuel rest
      | [] => ['�']
    else '�' :: utf8LossyGo fuel rest

/-- `String::from_utf8_lossy` on a byte list. -/
def utf8Lossy (bytes : List Nat) : List Char :=
  utf8LossyGo bytes.length bytes

/-- UTF-8 encoding of one character (to build concrete byte streams). -/
def utf8Encode (c : Char) : List Nat :=
  let n := c.toNat
  if n < 0x80 then [n]
  else if n < 0x800 then [0xC0 + n / 64, 0x80 + n % 64]
  else if n < 0x10000 then [0xE0 + n / 4096, 0x80 + (n / 64) % 64, 0x80 + n % 64]
  else [0xF0 + n / 262144, 0x80 + (n / 4096) % 64, 0x80 + (n / 64) % 64, 0x80 + n % 64]

/-- UTF-8 encoding of a character list. -/
def utf8EncodeAll (s : List Char) : List Nat :=
  (s.map utf8Encode).flatten

/-- The parser on raw byte chunks: each chunk goes through
`String::from_utf8_lossy` before entering the character-level machinery
(line 34 of `parse.rs`). -/
def parseByteChunks (dec : List Char → Option RSResult) (reorder : AccList → AccList)
    (debug_raw : Bool) (chunks : List (List Nat)) : List StreamItem :=
  parseCharChunks dec reorder debug_raw (chunks.map utf8Lossy)

/-! ## Agent streaming loop (sdk/agent.rs, `run_streaming_with_debug`)

One iteration of the outer loop has two phases: the inner `while` consuming
the event stream (lines 166-202), then the sequential tool-execution loop
(lines 216-269).  The argument-JSON parse (`serde_json::from_str` with the
raw-string fallback, total by construction) is an oracle `parseArg` into an
arbitrary value type `V`; registry lookup plus `tool.run` is an oracle
`runTool` returning either the tool's `llm_output` or an error message. -/

/-- `AgentEvent` from `sdk/agent.rs`, over the parsed-value type `V`. -/
inductive AgentEvent (V : Type) where
  | textDelta (t : List Char)
  | toolStart (name : List Char) (input : V)
  | toolResult (name result : List Char) (success : Bool)
  | debug (t : List Char)
  | doneEvent (finalText : List Char) (messages : List Message)
  | errorEvent
  deriving Repr

/-- The inner loop's mutable state (`assistant_text`, `tool_calls`,
`saw_output`). -/
structure TurnState where
  assistantText : List Char
  toolCalls : List ToolCall
  sawOutput : Bool
  deriving DecidableEq, Repr

/-- The inner event-consuming `while` loop (lines 166-202).  Returns the
final turn state, the forwarded agent events, and whether the run was
terminated by a stream error item.  A `Done` event breaks out of the loop
only when output has been seen. -/
def innerLoop {V : Type} (debug_raw : Bool) (st : TurnState) :
    List StreamItem → TurnState × List (AgentEvent V) × Bool
  | [] => (st, [], false)
  | item :: rest =>
    match item with
    | .ev (.textDelta t) =>
      if t ≠ [] then
        let st' : TurnState :=
          { st with assistantText := st.assistantText ++ t, sawOutput := true }
        let (st'', evs, aborted) := innerLoop debug_raw st' rest
        (st'', .textDelta t :: evs, aborted)
      else innerLoop debug_raw st rest
    | .ev (.toolCall id name arguments) =>
      let st' : TurnState :=
        { st with toolCalls := st.toolCalls ++ [ToolCall.new id name arguments]
                  sawOutput := true }
      innerLoop debug_raw st' rest
    | .ev (.raw r) =>
      if debug_raw then
        let (st', evs, aborted) := innerLoop debug_raw st rest
        (st', .debug r :: evs, aborted)
      else innerLoop debug_raw st rest
    | .ev .done =>
      if st.sawOutput then (st, [], false)
      else innerLoop debug_raw st rest
    | .jsonParseError => (st, [.errorEvent], true)
    | .streamError _ => (st, [.errorEvent], true)

/-- The sequential tool-execution loop (lines 224-269): for each received
tool call, in order, emit `ToolStart`, run the tool, append the tool-role
message, emit `ToolResult`. -/
def runToolPhase {V : Type} (parseArg : List Char → V)
    (runTool : List Char → V → Except (List Char) (List Char)) :
    List ToolCall → List (AgentEvent V) × List Message
  | [] => ([], [])
  | tc :: rest =>
    let name := tc.function.name
    let input := parseArg tc.function.arguments
    let (result_text, success) :=
      match runTool name input with
      | .ok output => (output, true)
      | .error err => ("Error: ".data ++ err, false)
    let (evs, msgs) := runToolPhase parseArg runTool rest
    (.toolStart name input :: .toolResult name result_text success :: evs,
     Message.tool_result tc.id result_text :: msgs)

/-- The tool-call record the agent builds for a received `ToolCall` stream
event (line 178). -/
def toolCallOfEvent : StreamItem → Option ToolCall
  | .ev (.toolCall id name arguments) => some (ToolCall.new id name arguments)
  | _ => none

/-! ## Support definitions for the statements -/

/-- The `total_lines` value `read_file` computes for a content. -/
def totalLinesOf (content : List Char) : Nat :=
  max ((splitOnNl content).map
    (fun line => if hasCRLF content then stripSuffixCR line else line)).length 1

/-- The logical lines `read_file` computes (CRLF-aware). -/
def processedLines (content : List Char) : List (List Char) :=
  (splitOnNl content).map (fun line => if hasCRLF content then stripSuffixCR line else line)

/-- The sensitive-path condition exactly as the specification enumerates
it: file name case-insensitively `.env`, begins with `.env.`, or equals
`tauri.conf.json`, `id_rsa` or `id_ed25519`; or some path component equals
`.git`, `.ssh` or `.gnupg`. -/
def claimSensitive (p : RPath) : Prop :=
  eqIgnoreAsciiCase (fileNameOf p) ".env".data = true
  ∨ (".env.".data).isPrefixOf ((fileNameOf p).map asciiLower) = true
  ∨ eqIgnoreAsciiCase (fileNameOf p) "tauri.conf.json".data = true
  ∨ eqIgnoreAsciiCase (fileNameOf p) "id_rsa".data = true
  ∨ eqIgnoreAsciiCase (fileNameOf p) "id_ed25519".data = true
  ∨ ∃ name, PathComponent.normal name ∈ p
      ∧ (eqIgnoreAsciiCase name ".git".data = true
         ∨ eqIgnoreAsciiCase name ".ssh".data = true
         ∨ eqIgnoreAsciiCase name ".gnupg".data = true)

/-- The shared prefix of `WriteFileTool::run` and `execute_edit_file`:
sandbox resolution followed by the sensitive-path gate (the write-class
tools `write_file`, `edit_file` and `streaming_edit_file` all run exactly
this before touching the filesystem). -/
def sensitiveGate (fs : FileSystem) (root target : RPath)
    (allow_sensitive : Bool) : Except ToolError RPath :=
  match resolve_and_validate_path fs root target with
  | .error e => .error e
  | .ok p =>
    match ensure_not_sensitive p allow_sensitive with
    | .error e => .error e
    | .ok _ => .ok p

/-- A symlink-free filesystem containing only `/` and `/proj`:
`canonicalize` resolves lexically and requires existence, like the POSIX
`realpath` the Rust `canonicalize` wraps. -/
def fsProjOnly : FileSystem :=
  { pathExists := fun p =>
      lexResolve p ∈ [[PathComponent.rootDir], [PathComponent.rootDir, .normal "proj".data]]
    canonicalize := fun p =>
      if lexResolve p ∈ [[PathComponent.rootDir], [PathComponent.rootDir, .normal "proj".data]]
      then some (lexResolve p) else none }

/-- The project root `/proj`. -/
def projRoot : RPath := [.rootDir, .normal "proj".data]

/-- The absent target `/proj/../etc/passwd`. -/
def escapeTarget : RPath :=
  [.rootDir, .normal "proj".data, .parentDir, .normal "etc".data, .normal "passwd".data]

/-- Structural twin of `parseCharChunks`'s `foldl`, emitting each chunk's
items in front: easier to reason about by induction. -/
def parseSteps (dec : List Char → Option RSResult) (reorder : AccList → AccList)
    (debug_raw : Bool) (st : ParserState) :
    List (List Char) → ParserState × List StreamItem
  | [] => (st, [])
  | c :: rest =>
    let fc := feedChunk dec reorder debug_raw st c
    let ps := parseSteps dec reorder debug_raw fc.1 rest
    (ps.1, fc.2 ++ ps.2)

/-- Structural twin of `runLines`. -/
def runLinesRec (dec : List Char → Option RSResult) (reorder : AccList → AccList)
    (debug_raw : Bool) (st : ParserAccState) :
    List (List Char) → ParserAccState × List StreamItem
  | [] => (st, [])
  | line :: rest =>
    let pl := processLine dec reorder debug_raw st line
    let rl := runLinesRec dec reorder debug_raw pl.1 rest
    (rl.1, pl.2 ++ rl.2)

/-- `feedChunk` without the per-chunk CRLF normalisation.  Because
`processLine` trims each line's end (which removes the `'\r'` of any CRLF
pair, the only character `replaceCRLF` deletes), this simplified step is
equivalent to `feedChunk`; it is the vehicle for the chunk-invariance
proof. -/
def feedChunkS (dec : List Char → Option RSResult) (reorder : AccList → AccList)
    (debug_raw : Bool) (st : ParserState) (chunkText : List Char) :
    ParserState × List StreamItem :=
  let combined := st.buffer ++ chunkText
  let split := splitComplete combined
  let run := runLines dec reorder debug_raw st.accState split.1
  (⟨split.2, run.1⟩, run.2)

/-- `parseSteps` over the simplified chunk step. -/
def parseStepsS (dec : List Char → Option RSResult) (reorder : AccList → AccList)
    (debug_raw : Bool) (st : ParserState) :
    List (List Char) → ParserState × List StreamItem
  | [] => (st, [])
  | c :: rest =>
    let fc := feedChunkS dec reorder debug_raw st c
    let ps := parseStepsS dec reorder debug_raw fc.1 rest
    (ps.1, fc.2 ++ ps.2)

/-- Is a stream item the `Done` event? -/
def isDoneItem : StreamItem → Bool
  | .ev .done => true
  | _ => false

/-- Is a stream item a `ToolCall` event? -/
def isToolCallItem : StreamItem → Bool
  | .ev (.toolCall _ _ _) => true
  | _ => false

/-- The ids of the `ToolCall` events among the items, in order. -/
def toolCallIds (items : List StreamItem) : List (List Char) :=
  items.filterMap fun i =>
    match i with
    | .ev (.toolCall id _ _) => some id
    | _ => none

/-- The name of a `ToolCall` stream item, if it is one. -/
def toolCallName : StreamItem → Option (List Char)
  | .ev (.toolCall _ name _) => some name
  | _ => none

/-- A payload carries a finish signal: it is non-empty and is either the
`[DONE]` sentinel or a JSON object without an `error` field in which some
choice has a `finish_reason`. -/
def isFinishData (dec : List Char → Option RSResult) (data : List Char) : Prop :=
  ¬data.isEmpty = true ∧
  (data = "[DONE]".data ∨
    ∃ r, dec data = some r ∧ r.error = none
      ∧ ∃ c ∈ r.choices, c.finish_reason.isSome = true)

/-- A line carries a finish signal. -/
def isFinishLine (dec : List Char → Option RSResult) (line : List Char) : Prop :=
  match dataOfLine line with
  | none => False
  | some data => isFinishData dec data

/-- The complete lines the parser extracts from a char-chunk stream (the
chunking does not matter, see the C6 development). -/
def sseLines (chunks : List (List Char)) : List (List Char) :=
  (splitComplete chunks.flatten).1

/-- No item of the list is a `Done` or a `ToolCall` event. -/
def noDoneToolCall (items : List StreamItem) : Prop :=
  ∀ x ∈ items, isDoneItem x = false ∧ isToolCallItem x = false

/-- The invariant of the accumulator association list: keys are distinct
(`HashMap` keys), and every accumulator's `id` is either empty or equal to
its key (ids key the map when present). -/
def AccsInv (accs : AccList) : Prop :=
  (accs.map Prod.fst).Nodup ∧ ∀ p ∈ accs, p.2.id = [] ∨ p.2.id = p.1

/-- The flush block emitted at the first finish: every item is a
`ToolCall` with a non-empty name, and the non-empty ids among them are
pairwise distinct. -/
def goodFlushBlock (items : List StreamItem) : Prop :=
  (∀ x ∈ items, ∃ id name args,
     x = .ev (.toolCall id name args) ∧ name ≠ [])
  ∧ ((toolCallIds items).filter (fun id => !id.isEmpty)).Nodup

/-- Generic structural twin of the event-accumulating `foldl` pattern. -/
def stepFold {σ α β : Type} (step : σ → α → σ × List β) (st : σ) :
    List α → σ × List β
  | [] => (st, [])
  | x :: rest =>
    let s1 := step st x
    let s2 := stepFold step s1.1 rest
    (s2.1, s1.2 ++ s2.2)

/-- The well-formed SSE payload `{"choices":[{"delta":{"content":"é"}}]}`. -/
def c6PayloadGood : List Char :=
  "\x7b\"choices\":[\x7b\"delta\":\x7b\"content\":\"é\"\x7d\x7d]\x7d".data

/-- The same payload as it comes out of two lossy decodes that split the
two-byte character `é`: both halves decode to U+FFFD. -/
def c6PayloadBad : List Char :=
  "\x7b\"choices\":[\x7b\"delta\":\x7b\"content\":\"��\"\x7d\x7d]\x7d".data

/-- A JSON oracle agreeing with `serde_json` on the two payloads the
counterexample exercises: both are valid JSON objects whose
`delta.content` is the quoted string. -/
def c6Dec : List Char → Option RSResult := fun s =>
  if s = c6PayloadGood then
    some ⟨[⟨some ⟨some "é".data, none, none, none, none⟩, none, none⟩], none⟩
  else if s = c6PayloadBad then
    some ⟨[⟨some ⟨some "��".data, none, none, none, none⟩, none, none⟩], none⟩
  else none

/-- The byte stream `data: {"choices":[{"delta":{"content":"é"}}]}\n`. -/
def c6Bytes : List Nat :=
  utf8EncodeAll ("data: ".data ++ c6PayloadGood ++ ['\n'])

/-- The same bytes split in the middle of the `é` (0xC3 0xA9) sequence:
first chunk ends with the lead byte. -/
def c6ChunkA : List Nat :=
  utf8EncodeAll "data: \x7b\"choices\":[\x7b\"delta\":\x7b\"content\":\"".data ++ [0xC3]

/-- Second chunk: the orphaned continuation byte and the rest. -/
def c6ChunkB : List Nat :=
  0xA9 :: utf8EncodeAll "\"\x7d\x7d]\x7d\n".data

/-- A streamed tool-call chunk with no `id` field: index 0, name `alpha`. -/
def c3Payload1 : List Char :=
  "\x7b\"choices\":[\x7b\"delta\":\x7b\"tool_calls\":[\x7b\"index\":0,\"function\":\x7b\"name\":\"alpha\",\"arguments\":\"\x7b\x7d\"\x7d\x7d]\x7d\x7d]\x7d".data

/-- A second id-less tool-call chunk: index 1, name `beta`. -/
def c3Payload2 : List Char :=
  "\x7b\"choices\":[\x7b\"delta\":\x7b\"tool_calls\":[\x7b\"index\":1,\"function\":\x7b\"name\":\"beta\",\"arguments\":\"\x7b\x7d\"\x7d\x7d]\x7d\x7d]\x7d".data

/-- JSON oracle for the two payloads above (what `serde_json` yields on
them: `id: None`, so the accumulator keeps the default empty id). -/
def c3Dec : List Char → Option RSResult := fun s =>
  if s = c3Payload1 then
    some ⟨[⟨some ⟨none, none, none, none,
      some [⟨some 0, none, some ⟨some "alpha".data, some "\x7b\x7d".data⟩⟩]⟩, none, none⟩], none⟩
  else if s = c3Payload2 then
    some ⟨[⟨some ⟨none, none, none, none,
      some [⟨some 1, none, some ⟨some "beta".data, some "\x7b\x7d".data⟩⟩]⟩, none, none⟩], none⟩
  else none

/-- The flush entry function of `flush_tool_calls`. -/
def flushEntry (p : List Char × ToolCallAccumulator) : Option StreamItem :=
  if p.2.name ≠ [] then some (.ev (.toolCall p.2.id p.2.name p.2.arguments))
  else none

/-- The SSE stream carrying the two id-less tool calls and a `[DONE]`. -/
def c3Stream : List Char :=
  "data: ".data ++ c3Payload1 ++ ['\n'] ++ "data: ".data ++ c3Payload2 ++ ['\n']
    ++ "data: [DONE]\n".data

/-- The result text and success flag the agent computes for one tool call
(`agent.rs` lines 236-259: registry lookup plus `tool.run`, with every
error rendered as `Error: _` and `success = false`). -/
def toolResultText {V : Type} (parseArg : List Char → V)
    (runTool : List Char → V → Except (List Char) (List Char)) (tc : ToolCall) :
    List Char × Bool :=
  match runTool tc.function.name (parseArg tc.function.arguments) with
  | .ok output => (output, true)
  | .error err => ("Error: ".data ++ err, false)

/-- One streamed delta carrying two tool calls, ids `a` then `b`. -/
def c2Payload : List Char :=
  "\x7b\"choices\":[\x7b\"delta\":\x7b\"tool_calls\":[\x7b\"id\":\"a\",\"function\":\x7b\"name\":\"alpha\"\x7d\x7d,\x7b\"id\":\"b\",\"function\":\x7b\"name\":\"beta\"\x7d\x7d]\x7d\x7d]\x7d".data

/-- JSON oracle for that payload (what `serde_json` yields on it). -/
def c2Dec : List Char → Option RSResult := fun s =>
  if s = c2Payload then
    some ⟨[⟨some ⟨none, none, none, none,
      some [⟨none, some "a".data, some ⟨some "alpha".data, none⟩⟩,
            ⟨none, some "b".data, some ⟨some "beta".data, none⟩⟩]⟩, none, none⟩], none⟩
  else none

/-- The SSE stream observing tool call `a` strictly before `b`. -/
def c2Stream : List Char :=
  "data: ".data ++ c2Payload ++ ['\n'] ++ "data: [DONE]\n".data

/-! # Theorems -/

/-! ### Helper lemmas -/

theorem mapModify_absent (id : List Char) (f : Session → Session) (m : SessionMap)
    (h : ∀ p ∈ m, (p.1 == id) = false) : mapModify id f m = m := by
  induction m with
  | nil => rfl
  | cons p rest ih =>
    have hp := h p (List.mem_cons_self p rest)
    have hr : ∀ q ∈ rest, (q.1 == id) = false :=
      fun q hq => h q (List.mem_cons_of_mem p hq)
    show (if p.1 == id then (p.1, f p.2) else p) :: mapModify id f rest = p :: rest
    rw [hp, ih hr]
    simp

theorem filter_keep_absent (id : List Char) (m : SessionMap)
    (h : ∀ p ∈ m, (p.1 == id) = false) :
    m.filter (fun p => ¬(p.1 == id)) = m := by
  induction m with
  | nil => rfl
  | cons p rest ih =>
    have hp := h p (List.mem_cons_self p rest)
    have hr : ∀ q ∈ rest, (q.1 == id) = false :=
      fun q hq => h q (List.mem_cons_of_mem p hq)
    rw [List.filter_cons, ih hr]
    simp [hp]

theorem sessionGet_none_keys (id : List Char) (m : SessionMap)
    (h : SessionStore.get id m = none) : ∀ p ∈ m, (p.1 == id) = false := by
  intro p hp
  unfold SessionStore.get mapGet at h
  cases hfind : m.find? (fun q => q.1 == id) with
  | some q => rw [hfind] at h; exact absurd h (by simp)
  | none =>
    have := List.find?_eq_none.mp hfind p hp
    simpa using this

/-! ### C9: mutating session-store operations on an absent id -/

/-- C9: for every session id not present in the store, `append`,
`append_many`, `replace_messages`, `set_name` and `clear` leave the store
unchanged, and `delete` of an absent id is a silent no-op. -/
theorem C9_absent_session_noop (id : List Char) (m : SessionMap)
    (h : SessionStore.get id m = none) :
    (∀ msg now, SessionStore.append id msg now m = m)
    ∧ (∀ msgs now, SessionStore.append_many id msgs now m = m)
    ∧ (∀ msgs now, SessionStore.replace_messages id msgs now m = m)
    ∧ (∀ name now, SessionStore.set_name id name now m = m)
    ∧ (∀ now, SessionStore.clear id now m = m)
    ∧ SessionStore.delete id m = m := by
  have hk := sessionGet_none_keys id m h
  refine ⟨?_, ?_, ?_, ?_, ?_, ?_⟩
  · intro msg now; exact mapModify_absent id _ m hk
  · intro msgs now; exact mapModify_absent id _ m hk
  · intro msgs now; exact mapModify_absent id _ m hk
  · intro name now; exact mapModify_absent id _ m hk
  · intro now; exact mapModify_absent id _ m hk
  · exact filter_keep_absent id m hk

/-- Witness for C9 at a concrete store: the store holding only session
`"a"` is untouched by every mutating operation on the absent id `"b"`. -/
theorem C9_absent_session_noop_witness :
    SessionStore.get "b".data
        [("a".data, ⟨"a".data, none, [], 0, 0⟩)] = none
    ∧ SessionStore.delete "b".data
        [("a".data, ⟨"a".data, none, [], 0, 0⟩)]
      = [("a".data, ⟨"a".data, none, [], 0, 0⟩)] := by
  refine ⟨by decide, ?_⟩
  exact (C9_absent_session_noop "b".data
    [("a".data, ⟨"a".data, none, [], 0, 0⟩)] (by decide)).2.2.2.2.2

theorem splitOnNl_ne_nil (s : List Char) : splitOnNl s ≠ [] := by
  cases s with
  | nil => simp [splitOnNl]
  | cons c rest =>
    unfold splitOnNl
    by_cases hc : c = '\n'
    · simp [hc]
    · simp only [if_neg hc]
      cases splitOnNl rest <;> simp

theorem drop_length_sub_one {α : Type} : ∀ (l : List α) (d : α), l ≠ [] →
    l.drop (l.length - 1) = [l.getLastD d]
  | [], _, h => absurd rfl h
  | [x], _, _ => rfl
  | x :: y :: rest, d, _ => by
    have ih := drop_length_sub_one (y :: rest) d (by simp)
    have h1 : (x :: y :: rest).length - 1 = rest.length + 1 := by simp
    rw [h1]
    show (y :: rest).drop rest.length = [(x :: y :: rest).getLastD d]
    have h2 : (y :: rest).length - 1 = rest.length := by simp
    rw [h2] at ih
    rw [ih, List.getLastD_eq_getLast?, List.getLastD_eq_getLast?,
      List.getLast?_cons_cons]

theorem totalLinesOf_eq (content : List Char) :
    totalLinesOf content = (processedLines content).length ∧ 1 ≤ totalLinesOf content := by
  have h1 : (splitOnNl content).length ≥ 1 :=
    List.length_pos.mpr (splitOnNl_ne_nil content)
  unfold totalLinesOf processedLines
  constructor
  · rw [List.length_map]; omega
  · omega

/-- `read_file_lines` with its `let` bindings unfolded into the named
support definitions (definitional). -/
theorem read_file_lines_eq (content : List Char) (s? e? : Option Nat) :
    read_file_lines content s? e? =
      if s?.getD 1 < 1 then .error .startLineTooSmall
      else if e?.getD (totalLinesOf content) < s?.getD 1 then .error .endBeforeStart
      else if e?.getD (totalLinesOf content) > totalLinesOf content then
        .error (.endOutOfBounds (e?.getD (totalLinesOf content)) (totalLinesOf content))
      else .ok { content := joinSep (if hasCRLF content then ['\r', '\n'] else ['\n'])
                   (((processedLines content).drop (s?.getD 1 - 1)).take
                     (e?.getD (totalLinesOf content) - (s?.getD 1 - 1)))
                 start_line := s?.getD 1
                 end_line := e?.getD (totalLinesOf content)
                 total_lines := totalLinesOf content } := rfl

/-! ### C7: `read_file` line-range semantics -/

/-- C7: for a UTF-8 file content, `read_file` treats `start_line`
(default 1) and `end_line` (default `total_lines`) as 1-based inclusive
bounds and fails exactly when `start_line < 1`, `end_line < start_line`, or
`end_line > total_lines`; `start_line = end_line = total_lines` returns the
single last line, and `start_line = total_lines + 1` with a defaulted
`end_line` fails. -/
theorem C7_read_file_bounds (content : List Char) (s? e? : Option Nat) :
    ((read_file_lines content s? e?).isOk = true
      ↔ (1 ≤ s?.getD 1 ∧ s?.getD 1 ≤ e?.getD (totalLinesOf content)
          ∧ e?.getD (totalLinesOf content) ≤ totalLinesOf content))
    ∧ (read_file_lines content (some (totalLinesOf content)) (some (totalLinesOf content))
        = .ok { content := (processedLines content).getLastD []
                start_line := totalLinesOf content
                end_line := totalLinesOf content
                total_lines := totalLinesOf content })
    ∧ read_file_lines content (some (totalLinesOf content + 1)) none
        = .error .endBeforeStart := by
  obtain ⟨hlen, hpos⟩ := totalLinesOf_eq content
  refine ⟨?_, ?_, ?_⟩
  · rw [read_file_lines_eq]
    split
    next h1 => simp [Except.isOk, Except.toBool]; omega
    next h1 =>
      split
      next h2 => simp [Except.isOk, Except.toBool]; omega
      next h2 =>
        split
        next h3 => simp [Except.isOk, Except.toBool]; omega
        next h3 => simp [Except.isOk, Except.toBool]; omega
  · rw [read_file_lines_eq]
    have hne : processedLines content ≠ [] := by
      intro hc
      rw [hc] at hlen
      simp at hlen
      omega
    split
    next h1 => simp only [Option.getD_some] at h1; omega
    next h1 =>
      split
      next h2 => simp only [Option.getD_some] at h2; omega
      next h2 =>
        split
        next h3 => simp only [Option.getD_some] at h3; omega
        next h3 =>
          have hdrop : (processedLines content).drop (totalLinesOf content - 1)
              = [(processedLines content).getLastD []] := by
            rw [hlen]; exact drop_length_sub_one (processedLines content) [] hne
          have htake : totalLinesOf content - (totalLinesOf content - 1) = 1 := by omega
          simp only [Option.getD_some, htake, hdrop]
          rfl
  · rw [read_file_lines_eq]
    split
    next h1 => simp only [Option.getD_some] at h1; omega
    next h1 =>
      split
      next h2 => rfl
      next h2 =>
        simp only [Option.getD_some, Option.getD_none] at h2
        omega

/-! ### C8: sensitive-path predicate and write-tool enforcement -/

/-- C8: the sensitive-path predicate holds exactly when the file name
case-insensitively equals `.env`, begins with `.env.`, or equals
`tauri.conf.json`, `id_rsa` or `id_ed25519`, or some path component equals
`.git`, `.ssh` or `.gnupg`; and the write-class tools (`write_file`,
`edit_file`, `streaming_edit_file`, which all run `sensitiveGate` first)
fail with the permission error on such a resolved path exactly when the
caller did not pass `allow_sensitive = true`. -/
theorem C8_sensitive_paths :
    (∀ p : RPath, is_sensitive_path p = true ↔ claimSensitive p)
    ∧ (∀ fs root target allow p,
        resolve_and_validate_path fs root target = .ok p →
        (sensitiveGate fs root target allow = .error .sensitivePath
          ↔ (is_sensitive_path p = true ∧ allow = false))) := by
  constructor
  · intro p
    unfold is_sensitive_path claimSensitive
    dsimp only
    split
    next hcond =>
      simp only [true_iff]
      simp only [sensitiveFiles, List.any_cons, List.any_nil, Bool.or_false,
        Bool.or_eq_true] at hcond
      rcases hcond with (h | h) | h | h | h
      all_goals tauto
    next hcond =>
      rw [List.any_eq_true]
      constructor
      · rintro ⟨c, hc, hf⟩
        cases c with
        | normal name =>
          refine Or.inr (Or.inr (Or.inr (Or.inr (Or.inr ⟨name, hc, ?_⟩))))
          simpa [sensitiveDirs] using hf
        | rootDir => simp at hf
        | curDir => simp at hf
        | parentDir => simp at hf
      · intro h
        rcases h with h | h | h | h | h | ⟨name, hmem, hd⟩
        · exact absurd (by simp [h]) hcond
        · exact absurd (by simp [h]) hcond
        · exact absurd (by simp [sensitiveFiles, h]) hcond
        · exact absurd (by simp [sensitiveFiles, h]) hcond
        · exact absurd (by simp [sensitiveFiles, h]) hcond
        · refine ⟨.normal name, hmem, ?_⟩
          show sensitiveDirs.any (fun d => eqIgnoreAsciiCase name d) = true
          rcases hd with h | h | h <;> simp [sensitiveDirs, h]
  · intro fs root target allow p hresolve
    unfold sensitiveGate
    rw [hresolve]
    unfold ensure_not_sensitive
    cases allow with
    | true => simp
    | false =>
      by_cases hs : is_sensitive_path p = true
      · simp [hs]
      · simp [Bool.not_eq_true] at hs
        simp [hs]

/-- Witness for C8: in the `/proj`-only filesystem the relative target
`.env` resolves to the prospective path `/proj/.env`, and the write gate
denies it without `allow_sensitive`. -/
theorem C8_sensitive_paths_witness :
    resolve_and_validate_path fsProjOnly projRoot [PathComponent.normal ".env".data]
      = .ok [PathComponent.rootDir, .normal "proj".data, .normal ".env".data]
    ∧ (sensitiveGate fsProjOnly projRoot [PathComponent.normal ".env".data] false
        = .error .sensitivePath
      ↔ (is_sensitive_path
          [PathComponent.rootDir, .normal "proj".data, .normal ".env".data] = true
         ∧ false = false)) :=
  ⟨by decide,
   C8_sensitive_paths.2 fsProjOnly projRoot [PathComponent.normal ".env".data] false
     [PathComponent.rootDir, .normal "proj".data, .normal ".env".data] (by decide)⟩

/-! ### C1: the path sandbox accepts escaping prospective paths -/

/-- C1 (refuting evaluation): for root `/proj` and the absent target
`/proj/../etc/passwd`, `resolve_and_validate_path` returns `Ok` with the
raw prospective path, because the component-wise `starts_with` check
accepts any absolute path that textually begins with the root — yet that
path resolves to `/etc/passwd`, outside the canonical root.  This
contradicts the invariant that every accepted path lies within the
canonicalised root. -/
theorem C1_sandbox_escape :
    resolve_and_validate_path fsProjOnly projRoot escapeTarget = .ok escapeTarget
    ∧ fsProjOnly.pathExists escapeTarget = false
    ∧ lexResolve escapeTarget
        = [PathComponent.rootDir, .normal "etc".data, .normal "passwd".data]
    ∧ projRoot.isPrefixOf (lexResolve escapeTarget) = false :=
  ⟨by decide, by decide, by decide, by decide⟩

/-! ### Parser infrastructure lemmas -/

theorem splitComplete_no_newline : ∀ s : List Char, '\n' ∉ s → splitComplete s = ([], s)
  | [], _ => rfl
  | c :: rest, h => by
    have hc : ¬c = '\n' := fun hc => h (hc ▸ List.mem_cons_self c rest)
    have hr : '\n' ∉ rest := fun hr => h (List.mem_cons_of_mem c hr)
    unfold splitComplete
    rw [if_neg hc, splitComplete_no_newline rest hr]

theorem splitComplete_rem_no_newline : ∀ s : List Char, '\n' ∉ (splitComplete s).2
  | [] => by simp [splitComplete]
  | c :: rest => by
    have ih := splitComplete_rem_no_newline rest
    unfold splitComplete
    by_cases hc : c = '\n'
    · simpa [hc] using ih
    · rw [if_neg hc]
      cases hsc : splitComplete rest with
      | mk ls r =>
        rw [hsc] at ih
        cases ls with
        | nil =>
          simp only []
          intro hmem
          rcases List.mem_cons.mp hmem with h | h
          · exact hc h.symm
          · exact ih h
        | cons l ls' => simpa using ih

theorem replaceCRLF_no_newline : ∀ t : List Char, '\n' ∉ t → replaceCRLF t = t
  | [], _ => rfl
  | [c], _ => rfl
  | c :: d :: rest, h => by
    have hd : ¬d = '\n' := fun hd => h (by simp [hd])
    have hr : '\n' ∉ d :: rest := fun hm => h (List.mem_cons_of_mem c hm)
    show (if c = '\r' ∧ d = '\n' then '\n' :: replaceCRLF rest
          else c :: replaceCRLF (d :: rest)) = c :: d :: rest
    rw [if_neg (fun hand => hd hand.2)]
    rw [replaceCRLF_no_newline (d :: rest) hr]

theorem parseSteps_cons (dec : List Char → Option RSResult)
    (reorder : AccList → AccList) (debug_raw : Bool) (st : ParserState)
    (c : List Char) (rest : List (List Char)) :
    parseSteps dec reorder debug_raw st (c :: rest)
      = ((parseSteps dec reorder debug_raw (feedChunk dec reorder debug_raw st c).1 rest).1,
         (feedChunk dec reorder debug_raw st c).2
           ++ (parseSteps dec reorder debug_raw (feedChunk dec reorder debug_raw st c).1 rest).2) := rfl

theorem parseSteps_eq_foldl (dec : List Char → Option RSResult)
    (reorder : AccList → AccList) (debug_raw : Bool) :
    ∀ (chunks : List (List Char)) (st : ParserState) (evs0 : List StreamItem),
    chunks.foldl (fun sa c =>
      let (st', evs') := feedChunk dec reorder debug_raw sa.1 c
      (st', sa.2 ++ evs')) (st, evs0)
    = ((parseSteps dec reorder debug_raw st chunks).1,
       evs0 ++ (parseSteps dec reorder debug_raw st chunks).2)
  | [], st, evs0 => by simp [parseSteps]
  | c :: rest, st, evs0 => by
    rw [List.foldl_cons]
    show (rest.foldl _
      ((feedChunk dec reorder debug_raw st c).1,
       evs0 ++ (feedChunk dec reorder debug_raw st c).2)) = _
    rw [parseSteps_eq_foldl dec reorder debug_raw rest]
    rw [parseSteps_cons]
    simp

theorem parseCharChunks_eq_steps (dec : List Char → Option RSResult)
    (reorder : AccList → AccList) (debug_raw : Bool) (chunks : List (List Char)) :
    parseCharChunks dec reorder debug_raw chunks
      = (parseSteps dec reorder debug_raw initParserState chunks).2 := by
  unfold parseCharChunks
  rw [parseSteps_eq_foldl]
  simp

theorem feedChunk_no_newline (dec : List Char → Option RSResult)
    (reorder : AccList → AccList) (debug_raw : Bool) (st : ParserState)
    (t : List Char) (hb : '\n' ∉ st.buffer) (ht : '\n' ∉ t) :
    feedChunk dec reorder debug_raw st t = (⟨st.buffer ++ t, st.accState⟩, []) := by
  unfold feedChunk
  dsimp only
  rw [replaceCRLF_no_newline t ht]
  have hcomb : '\n' ∉ st.buffer ++ t := by
    intro hmem
    rcases List.mem_append.mp hmem with h | h
    · exact hb h
    · exact ht h
  rw [splitComplete_no_newline _ hcomb]
  simp [runLines]

theorem feedChunk_rem_no_newline (dec : List Char → Option RSResult)
    (reorder : AccList → AccList) (debug_raw : Bool) (st : ParserState)
    (t : List Char) :
    '\n' ∉ (feedChunk dec reorder debug_raw st t).1.buffer :=
  splitComplete_rem_no_newline (st.buffer ++ replaceCRLF t)

theorem parseSteps_buffer_no_newline (dec : List Char → Option RSResult)
    (reorder : AccList → AccList) (debug_raw : Bool) :
    ∀ (chunks : List (List Char)) (st : ParserState), '\n' ∉ st.buffer →
    '\n' ∉ (parseSteps dec reorder debug_raw st chunks).1.buffer
  | [], st, h => h
  | c :: rest, st, _ => by
    rw [parseSteps_cons]
    exact parseSteps_buffer_no_newline dec reorder debug_raw rest _
      (feedChunk_rem_no_newline dec reorder debug_raw st c)

/-! ### C10: unterminated trailing data lines are never parsed -/

/-- C10: the SSE parser only processes newline-terminated lines — adding a
trailing chunk that contains no line feed (such as a final
`data: [DONE]` with no newline) changes nothing in the emitted event
sequence; in particular the concrete byte stream `data: [DONE]` without a
newline produces no event at all, hence no `Done`. -/
theorem C10_unterminated_tail :
    (∀ (dec : List Char → Option RSResult) (reorder : AccList → AccList)
       (debug_raw : Bool) (chunks : List (List Char)) (t : List Char),
       '\n' ∉ t →
       parseCharChunks dec reorder debug_raw (chunks ++ [t])
         = parseCharChunks dec reorder debug_raw chunks)
    ∧ parseByteChunks (fun _ => none) id false [utf8EncodeAll "data: [DONE]".data]
        = [] := by
  constructor
  · intro dec reorder debug_raw chunks t ht
    rw [parseCharChunks_eq_steps, parseCharChunks_eq_steps]
    have main : ∀ (cs : List (List Char)) (st : ParserState), '\n' ∉ st.buffer →
        (parseSteps dec reorder debug_raw st (cs ++ [t])).2
          = (parseSteps dec reorder debug_raw st cs).2 := by
      intro cs
      induction cs with
      | nil =>
        intro st hb
        show (parseSteps dec reorder debug_raw st [t]).2 = []
        unfold parseSteps
        rw [feedChunk_no_newline dec reorder debug_raw st t hb ht]
        rfl
      | cons c rest ih =>
        intro st hb
        show (parseSteps dec reorder debug_raw st (c :: (rest ++ [t]))).2 = _
        rw [parseSteps_cons, parseSteps_cons]
        dsimp only
        rw [ih _ (feedChunk_rem_no_newline dec reorder debug_raw st c)]
    exact main chunks initParserState (by simp [initParserState])
  · rfl

/-- Witness for C10: the concrete unterminated line `data: [DONE]` appended
to the empty stream emits nothing. -/
theorem C10_unterminated_tail_witness :
    ('\n' ∉ "data: [DONE]".data)
    ∧ parseCharChunks (fun _ => none) id false
        (([] : List (List Char)) ++ ["data: [DONE]".data])
      = parseCharChunks (fun _ => none) id false [] :=
  ⟨by decide,
   C10_unterminated_tail.1 (fun _ => none) id false [] "data: [DONE]".data (by decide)⟩

/-! ### C6 machinery: CRLF elimination and chunk associativity -/

theorem trimEnd_append_cr (x : List Char) : trimEnd (x ++ ['\r']) = trimEnd x := by
  unfold trimEnd
  rw [List.reverse_append]
  show ((['\r'].reverse ++ x.reverse).dropWhile isRustWhitespace).reverse = _
  rw [show (['\r'] : List Char).reverse = ['\r'] from rfl]
  rw [List.cons_append]
  rw [List.dropWhile_cons]
  rw [if_pos (by decide)]
  rfl

theorem stripSuffixCR_eq (l : List Char) :
    stripSuffixCR l = if l.getLast? = some '\r' then l.dropLast else l := by
  unfold stripSuffixCR
  split
  next h => rw [if_pos (by simpa using h)]
  next h => rw [if_neg (by simpa using h)]

theorem trimEnd_stripSuffixCR (l : List Char) : trimEnd (stripSuffixCR l) = trimEnd l := by
  rw [stripSuffixCR_eq]
  split
  next h =>
    have hl : l = l.dropLast ++ ['\r'] := by
      conv_lhs => rw [← List.dropLast_append_getLast? '\r' h]
    conv_rhs => rw [hl]
    rw [trimEnd_append_cr]
  next h => rfl

theorem stripSuffixCR_nil : stripSuffixCR [] = [] := rfl

theorem stripSuffixCR_cr : stripSuffixCR ['\r'] = [] := by decide

theorem stripSuffixCR_cons (c : Char) (l : List Char) (h : l ≠ []) :
    stripSuffixCR (c :: l) = c :: stripSuffixCR l := by
  cases l with
  | nil => exact absurd rfl h
  | cons d l' =>
    rw [stripSuffixCR_eq, stripSuffixCR_eq]
    rw [List.getLast?_cons_cons]
    split
    next hl => rw [List.dropLast_cons₂]
    next hl => rfl

theorem splitComplete_nil : splitComplete [] = ([], []) := rfl

theorem splitComplete_cons_nl (rest : List Char) :
    splitComplete ('\n' :: rest)
      = ([] :: (splitComplete rest).1, (splitComplete rest).2) := rfl

theorem splitComplete_cons_ne (c : Char) (rest : List Char) (hc : ¬c = '\n') :
    splitComplete (c :: rest)
      = (match (splitComplete rest).1 with
         | [] => ([], c :: (splitComplete rest).2)
         | l :: ls => ((c :: l) :: ls, (splitComplete rest).2)) := by
  show (if c = '\n' then ([] :: (splitComplete rest).1, (splitComplete rest).2)
    else match (splitComplete rest).1 with
         | [] => ([], c :: (splitComplete rest).2)
         | l :: ls => ((c :: l) :: ls, (splitComplete rest).2)) = _
  rw [if_neg hc]

theorem splitComplete_head_cons (d : Char) (rest : List Char) (l : List Char)
    (ls : List (List Char)) (hd : ¬d = '\n')
    (h : (splitComplete (d :: rest)).1 = l :: ls) : ∃ l', l = d :: l' := by
  rw [splitComplete_cons_ne d rest hd] at h
  cases hrest : (splitComplete rest).1 with
  | nil => rw [hrest] at h; simp at h
  | cons l0 ls0 =>
    rw [hrest] at h
    simp at h
    exact ⟨l0, h.1.symm⟩

theorem splitComplete_replaceCRLF : ∀ s : List Char,
    splitComplete (replaceCRLF s)
      = ((splitComplete s).1.map stripSuffixCR, (splitComplete s).2)
  | [] => rfl
  | [c] => by
    show splitComplete [c] = _
    by_cases hc : c = '\n'
    · subst hc; rfl
    · rw [splitComplete_cons_ne c [] hc]
      rfl
  | c :: d :: rest => by
    show splitComplete (if c = '\r' ∧ d = '\n' then '\n' :: replaceCRLF rest
      else c :: replaceCRLF (d :: rest)) = _
    by_cases hcd : c = '\r' ∧ d = '\n'
    · rw [if_pos hcd]
      obtain ⟨hc, hd⟩ := hcd
      subst hc; subst hd
      rw [splitComplete_cons_nl]
      rw [splitComplete_replaceCRLF rest]
      rw [splitComplete_cons_ne '\r' ('\n' :: rest) (by decide)]
      rw [splitComplete_cons_nl]
      simp [stripSuffixCR_cr]
    · rw [if_neg hcd]
      have ih := splitComplete_replaceCRLF (d :: rest)
      by_cases hc : c = '\n'
      · subst hc
        rw [splitComplete_cons_nl, splitComplete_cons_nl, ih]
        simp [stripSuffixCR_nil]
      · rw [splitComplete_cons_ne c _ hc]
        rw [splitComplete_cons_ne c (d :: rest) hc]
        rw [ih]
        cases hlines : (splitComplete (d :: rest)).1 with
        | nil => simp
        | cons l ls =>
          simp only [List.map_cons]
          by_cases hd : d = '\n'
          · subst hd
            rw [splitComplete_cons_nl] at hlines
            have hl : l = [] := by simp at hlines; exact hlines.1
            subst hl
            have hc' : ¬c = '\r' := fun hc' => hcd ⟨hc', rfl⟩
            have hstrip : stripSuffixCR (c :: []) = c :: [] := by
              rw [stripSuffixCR_eq]
              rw [if_neg (by simpa using hc')]
            simp only [List.map_cons, hstrip, stripSuffixCR_nil]
          · obtain ⟨l', hl'⟩ := splitComplete_head_cons d rest l ls hd hlines
            subst hl'
            rw [stripSuffixCR_cons c (d :: l') (by simp)]

theorem splitComplete_prepend_nil (a s : List Char) (ha : '\n' ∉ a)
    (h : (splitComplete s).1 = []) :
    splitComplete (a ++ s) = ([], a ++ (splitComplete s).2) := by
  induction a with
  | nil => simp [h]; rw [← h]
  | cons c a' ih =>
    have hc : ¬c = '\n' := fun hc => ha (by simp [hc])
    have ha' : '\n' ∉ a' := fun hm => ha (List.mem_cons_of_mem c hm)
    rw [List.cons_append, splitComplete_cons_ne c (a' ++ s) hc]
    rw [ih ha']
    rfl

theorem splitComplete_prepend_cons (a s : List Char) (ha : '\n' ∉ a)
    (l : List Char) (ls : List (List Char)) (h : (splitComplete s).1 = l :: ls) :
    splitComplete (a ++ s) = ((a ++ l) :: ls, (splitComplete s).2) := by
  induction a with
  | nil =>
    simp only [List.nil_append]
    rw [← h]
  | cons c a' ih =>
    have hc : ¬c = '\n' := fun hc => ha (by simp [hc])
    have ha' : '\n' ∉ a' := fun hm => ha (List.mem_cons_of_mem c hm)
    rw [List.cons_append, splitComplete_cons_ne c (a' ++ s) hc]
    rw [ih ha']
    rfl

theorem splitComplete_append : ∀ x y : List Char,
    splitComplete (x ++ y)
      = ((splitComplete x).1 ++ (splitComplete ((splitComplete x).2 ++ y)).1,
         (splitComplete ((splitComplete x).2 ++ y)).2)
  | [], y => by simp [splitComplete_nil]
  | c :: x', y => by
    have ih := splitComplete_append x' y
    by_cases hc : c = '\n'
    · subst hc
      rw [List.cons_append, splitComplete_cons_nl, splitComplete_cons_nl, ih]
      rfl
    · rw [List.cons_append, splitComplete_cons_ne c (x' ++ y) hc,
        splitComplete_cons_ne c x' hc, ih]
      cases hx : (splitComplete x').1 with
      | nil =>
        simp only [List.nil_append]
        rw [List.cons_append, splitComplete_cons_ne c ((splitComplete x').2 ++ y) hc]
      | cons l ls => simp only [List.cons_append]

theorem processLine_congr (dec : List Char → Option RSResult)
    (reorder : AccList → AccList) (debug_raw : Bool) (st : ParserAccState)
    (l1 l2 : List Char) (h : trimEnd l1 = trimEnd l2) :
    processLine dec reorder debug_raw st l1 = processLine dec reorder debug_raw st l2 := by
  unfold processLine dataOfLine
  rw [h]

theorem runLinesRec_cons (dec : List Char → Option RSResult)
    (reorder : AccList → AccList) (debug_raw : Bool) (st : ParserAccState)
    (line : List Char) (rest : List (List Char)) :
    runLinesRec dec reorder debug_raw st (line :: rest)
      = ((runLinesRec dec reorder debug_raw
            (processLine dec reorder debug_raw st line).1 rest).1,
         (processLine dec reorder debug_raw st line).2
           ++ (runLinesRec dec reorder debug_raw
                 (processLine dec reorder debug_raw st line).1 rest).2) := rfl

theorem runLinesRec_congr (dec : List Char → Option RSResult)
    (reorder : AccList → AccList) (debug_raw : Bool) :
    ∀ (L1 L2 : List (List Char)) (st : ParserAccState),
    L1.map trimEnd = L2.map trimEnd →
    runLinesRec dec reorder debug_raw st L1 = runLinesRec dec reorder debug_raw st L2
  | [], [], _, _ => rfl
  | [], l :: _, _, h => by simp at h
  | l :: _, [], _, h => by simp at h
  | l1 :: r1, l2 :: r2, st, h => by
    simp only [List.map_cons, List.cons.injEq] at h
    rw [runLinesRec_cons, runLinesRec_cons]
    rw [processLine_congr dec reorder debug_raw st l1 l2 h.1]
    rw [runLinesRec_congr dec reorder debug_raw r1 r2 _ h.2]

theorem runLinesRec_eq_foldl (dec : List Char → Option RSResult)
    (reorder : AccList → AccList) (debug_raw : Bool) :
    ∀ (L : List (List Char)) (st : ParserAccState) (evs0 : List StreamItem),
    L.foldl (fun sa line =>
      let (st', evs') := processLine dec reorder debug_raw sa.1 line
      (st', sa.2 ++ evs')) (st, evs0)
    = ((runLinesRec dec reorder debug_raw st L).1,
       evs0 ++ (runLinesRec dec reorder debug_raw st L).2)
  | [], st, evs0 => by simp [runLinesRec]
  | l :: rest, st, evs0 => by
    rw [List.foldl_cons]
    show (rest.foldl _
      ((processLine dec reorder debug_raw st l).1,
       evs0 ++ (processLine dec reorder debug_raw st l).2)) = _
    rw [runLinesRec_eq_foldl dec reorder debug_raw rest]
    show _ = ((runLinesRec dec reorder debug_raw
        (processLine dec reorder debug_raw st l).1 rest).1,
      evs0 ++ ((processLine dec reorder debug_raw st l).2
        ++ (runLinesRec dec reorder debug_raw
             (processLine dec reorder debug_raw st l).1 rest).2))
    simp

theorem runLines_eq_rec (dec : List Char → Option RSResult)
    (reorder : AccList → AccList) (debug_raw : Bool) (st : ParserAccState)
    (L : List (List Char)) :
    runLines dec reorder debug_raw st L = runLinesRec dec reorder debug_raw st L := by
  unfold runLines
  rw [runLinesRec_eq_foldl]
  simp

theorem runLinesRec_append (dec : List Char → Option RSResult)
    (reorder : AccList → AccList) (debug_raw : Bool) :
    ∀ (L1 L2 : List (List Char)) (st : ParserAccState),
    runLinesRec dec reorder debug_raw st (L1 ++ L2)
      = ((runLinesRec dec reorder debug_raw
            (runLinesRec dec reorder debug_raw st L1).1 L2).1,
         (runLinesRec dec reorder debug_raw st L1).2
           ++ (runLinesRec dec reorder debug_raw
                 (runLinesRec dec reorder debug_raw st L1).1 L2).2)
  | [], L2, st => by simp [runLinesRec]
  | l :: rest, L2, st => by
    rw [List.cons_append]
    simp only [runLinesRec_cons]
    rw [runLinesRec_append dec reorder debug_raw rest L2]
    simp

/-- The CRLF key lemma: prepending a newline-free buffer, the complete
lines of `b ++ replaceCRLF c` agree with those of `b ++ c` after
end-trimming, and the remainders agree. -/
theorem crlf_key (b c : List Char) (hb : '\n' ∉ b) :
    (splitComplete (b ++ replaceCRLF c)).1.map trimEnd
        = (splitComplete (b ++ c)).1.map trimEnd
    ∧ (splitComplete (b ++ replaceCRLF c)).2 = (splitComplete (b ++ c)).2 := by
  cases hlines : (splitComplete c).1 with
  | nil =>
    have h1 : (splitComplete (replaceCRLF c)).1 = [] := by
      rw [splitComplete_replaceCRLF, hlines]; rfl
    have h2 : (splitComplete (replaceCRLF c)).2 = (splitComplete c).2 := by
      rw [splitComplete_replaceCRLF]
    rw [splitComplete_prepend_nil b (replaceCRLF c) hb h1,
        splitComplete_prepend_nil b c hb hlines, h2]
    exact ⟨rfl, rfl⟩
  | cons l ls =>
    have h1 : (splitComplete (replaceCRLF c)).1 = stripSuffixCR l :: ls.map stripSuffixCR := by
      rw [splitComplete_replaceCRLF, hlines]; rfl
    have h2 : (splitComplete (replaceCRLF c)).2 = (splitComplete c).2 := by
      rw [splitComplete_replaceCRLF]
    rw [splitComplete_prepend_cons b (replaceCRLF c) hb _ _ h1,
        splitComplete_prepend_cons b c hb l ls hlines, h2]
    refine ⟨?_, rfl⟩
    simp only [List.map_cons, List.cons.injEq]
    constructor
    · rw [stripSuffixCR_eq]
      split
      next hlast =>
        have hl : l = l.dropLast ++ ['\r'] := by
          conv_lhs => rw [← List.dropLast_append_getLast? '\r' hlast]
        conv_rhs => rw [hl]
        rw [← List.append_assoc, trimEnd_append_cr]
      next hlast => rfl
    · rw [List.map_map]
      exact List.map_congr_left fun x _ => trimEnd_stripSuffixCR x

theorem feedChunk_eq_simplified (dec : List Char → Option RSResult)
    (reorder : AccList → AccList) (debug_raw : Bool) (st : ParserState)
    (c : List Char) (hb : '\n' ∉ st.buffer) :
    feedChunk dec reorder debug_raw st c = feedChunkS dec reorder debug_raw st c := by
  obtain ⟨hlines, hrem⟩ := crlf_key st.buffer c hb
  unfold feedChunk feedChunkS
  dsimp only
  rw [hrem]
  rw [runLines_eq_rec, runLines_eq_rec]
  rw [runLinesRec_congr dec reorder debug_raw _ _ st.accState hlines]

theorem feedChunkS_rem_no_newline (dec : List Char → Option RSResult)
    (reorder : AccList → AccList) (debug_raw : Bool) (st : ParserState)
    (t : List Char) :
    '\n' ∉ (feedChunkS dec reorder debug_raw st t).1.buffer :=
  splitComplete_rem_no_newline (st.buffer ++ t)

theorem parseSteps_eq_simplified (dec : List Char → Option RSResult)
    (reorder : AccList → AccList) (debug_raw : Bool) :
    ∀ (chunks : List (List Char)) (st : ParserState), '\n' ∉ st.buffer →
    parseSteps dec reorder debug_raw st chunks
      = parseStepsS dec reorder debug_raw st chunks
  | [], _, _ => rfl
  | c :: rest, st, hb => by
    unfold parseSteps parseStepsS
    dsimp only
    rw [feedChunk_eq_simplified dec reorder debug_raw st c hb]
    rw [parseSteps_eq_simplified dec reorder debug_raw rest _
      (feedChunkS_rem_no_newline dec reorder debug_raw st c)]

theorem feedChunkS_append (dec : List Char → Option RSResult)
    (reorder : AccList → AccList) (debug_raw : Bool) (st : ParserState)
    (c1 c2 : List Char) :
    feedChunkS dec reorder debug_raw st (c1 ++ c2)
      = ((feedChunkS dec reorder debug_raw
            (feedChunkS dec reorder debug_raw st c1).1 c2).1,
         (feedChunkS dec reorder debug_raw st c1).2
           ++ (feedChunkS dec reorder debug_raw
                 (feedChunkS dec reorder debug_raw st c1).1 c2).2) := by
  unfold feedChunkS
  dsimp only
  rw [← List.append_assoc]
  rw [splitComplete_append (st.buffer ++ c1) c2]
  rw [runLines_eq_rec, runLines_eq_rec, runLines_eq_rec]
  rw [runLinesRec_append]

theorem parseStepsS_flatten (dec : List Char → Option RSResult)
    (reorder : AccList → AccList) (debug_raw : Bool) :
    ∀ (chunks : List (List Char)) (st : ParserState), '\n' ∉ st.buffer →
    parseStepsS dec reorder debug_raw st chunks
      = feedChunkS dec reorder debug_raw st chunks.flatten
  | [], st, hb => by
    show (st, []) = _
    unfold feedChunkS
    dsimp only
    rw [List.flatten_nil, List.append_nil]
    rw [splitComplete_no_newline st.buffer hb]
    rw [runLines_eq_rec]
    rfl
  | c :: rest, st, hb => by
    rw [List.flatten_cons]
    rw [feedChunkS_append]
    unfold parseStepsS
    dsimp only
    rw [parseStepsS_flatten dec reorder debug_raw rest _
      (feedChunkS_rem_no_newline dec reorder debug_raw st c)]

/-! ### C6: chunk-boundary invariance -/

/-- C6 (amended): at the character level — equivalently, for any chunking
of the byte stream whose boundaries fall on UTF-8 character boundaries —
the SSE parser emits the same items for any splitting: parsing a chunk
list is the same as parsing its concatenation in one piece.  This covers
boundaries inside a CRLF pair.  (It fails for boundaries inside a
multi-byte character, see the counterexample.) -/
theorem C6_chunk_invariance (dec : List Char → Option RSResult)
    (reorder : AccList → AccList) (debug_raw : Bool) (chunks : List (List Char)) :
    parseCharChunks dec reorder debug_raw chunks
      = parseCharChunks dec reorder debug_raw [chunks.flatten] := by
  rw [parseCharChunks_eq_steps, parseCharChunks_eq_steps]
  have hb : '\n' ∉ initParserState.buffer := by simp [initParserState]
  rw [parseSteps_eq_simplified dec reorder debug_raw chunks initParserState hb]
  rw [parseSteps_eq_simplified dec reorder debug_raw [chunks.flatten] initParserState hb]
  rw [parseStepsS_flatten dec reorder debug_raw chunks initParserState hb]
  show _ = (feedChunkS dec reorder debug_raw initParserState chunks.flatten).2 ++ []
  rw [List.append_nil]

/-- C6 (refutation of the claim as stated): splitting the byte stream
inside the two-byte UTF-8 character `é` changes the emitted events,
because `String::from_utf8_lossy` is applied to each chunk separately and
turns each half of the character into U+FFFD.  The unsplit stream emits
`TextDelta "é"`, the split stream emits `TextDelta "��"`. -/
theorem C6_chunk_boundary_counterexample :
    c6ChunkA ++ c6ChunkB = c6Bytes
    ∧ parseByteChunks c6Dec id false [c6Bytes]
        = [.ev (.textDelta "é".data)]
    ∧ parseByteChunks c6Dec id false [c6ChunkA, c6ChunkB]
        = [.ev (.textDelta "��".data)]
    ∧ parseByteChunks c6Dec id false [c6Bytes]
        ≠ parseByteChunks c6Dec id false [c6ChunkA, c6ChunkB] := by
  refine ⟨by decide, by decide, by decide, by decide⟩

/-! ### C3 machinery: flush, accumulator invariants, finish discipline -/

theorem stepFold_cons {σ α β : Type} (step : σ → α → σ × List β) (st : σ)
    (x : α) (rest : List α) :
    stepFold step st (x :: rest)
      = ((stepFold step (step st x).1 rest).1,
         (step st x).2 ++ (stepFold step (step st x).1 rest).2) := rfl

theorem stepFold_eq_foldl {σ α β : Type} (step : σ → α → σ × List β) :
    ∀ (l : List α) (st : σ) (evs0 : List β),
    l.foldl (fun sa x =>
      let s := step sa.1 x
      (s.1, sa.2 ++ s.2)) (st, evs0)
    = ((stepFold step st l).1, evs0 ++ (stepFold step st l).2)
  | [], st, evs0 => by simp [stepFold]
  | x :: rest, st, evs0 => by
    rw [List.foldl_cons]
    show (rest.foldl _ ((step st x).1, evs0 ++ (step st x).2)) = _
    rw [stepFold_eq_foldl step rest]
    rw [stepFold_cons]
    simp

theorem toolCallIds_cons (x : StreamItem) (rest : List StreamItem) :
    toolCallIds (x :: rest)
      = match x with
        | .ev (.toolCall id _ _) => id :: toolCallIds rest
        | _ => toolCallIds rest := by
  cases x with
  | ev e => cases e <;> simp [toolCallIds]
  | jsonParseError => simp [toolCallIds]
  | streamError m => simp [toolCallIds]

theorem flushToolCalls_eq (reorder : AccList → AccList) (accs : AccList) :
    flushToolCalls reorder accs
      = if accs.isEmpty then [] else (reorder accs).filterMap flushEntry := rfl

theorem flush_ids_subset_keys : ∀ (l : AccList),
    (∀ p ∈ l, p.2.id = [] ∨ p.2.id = p.1) →
    ∀ x ∈ ((toolCallIds (l.filterMap flushEntry)).filter (fun id => !id.isEmpty)),
    x ∈ l.map Prod.fst
  | [], _, x, hx => by simp [toolCallIds] at hx
  | p :: rest, hinv, x, hx => by
    have hrest := flush_ids_subset_keys rest
      (fun q hq => hinv q (List.mem_cons_of_mem p hq))
    rw [List.filterMap_cons] at hx
    cases hfe : flushEntry p with
    | none =>
      rw [hfe] at hx
      exact List.mem_cons_of_mem _ (hrest x hx)
    | some ev =>
      rw [hfe] at hx
      unfold flushEntry at hfe
      by_cases hname : p.2.name ≠ []
      · rw [if_pos hname] at hfe
        cases hfe
        rw [toolCallIds_cons] at hx
        rw [List.filter_cons] at hx
        by_cases hid : p.2.id.isEmpty = true
        · rw [hid] at hx
          simp only [Bool.not_true] at hx
          rw [if_neg (by simp)] at hx
          exact List.mem_cons_of_mem _ (hrest x hx)
        · rw [Bool.not_eq_true] at hid
          rw [hid] at hx
          simp only [Bool.not_false] at hx
          rw [if_pos trivial] at hx
          rcases List.mem_cons.mp hx with h | h
          · subst h
            rcases hinv p (List.mem_cons_self p rest) with h0 | h0
            · rw [h0] at hid; simp at hid
            · rw [h0]; exact List.mem_cons_self _ _
          · exact List.mem_cons_of_mem _ (hrest x h)
      · rw [if_neg hname] at hfe
        cases hfe

theorem flush_ids_nodup : ∀ (l : AccList),
    (l.map Prod.fst).Nodup →
    (∀ p ∈ l, p.2.id = [] ∨ p.2.id = p.1) →
    ((toolCallIds (l.filterMap flushEntry)).filter (fun id => !id.isEmpty)).Nodup
  | [], _, _ => by simp [toolCallIds]
  | p :: rest, hnd, hinv => by
    have hndr : (rest.map Prod.fst).Nodup := by
      rw [List.map_cons] at hnd
      exact hnd.of_cons
    have hinvr : ∀ q ∈ rest, q.2.id = [] ∨ q.2.id = q.1 :=
      fun q hq => hinv q (List.mem_cons_of_mem p hq)
    have ih := flush_ids_nodup rest hndr hinvr
    have hkey : p.1 ∉ rest.map Prod.fst := by
      rw [List.map_cons] at hnd
      exact (List.nodup_cons.mp hnd).1
    rw [List.filterMap_cons]
    cases hfe : flushEntry p with
    | none => exact ih
    | some ev =>
      unfold flushEntry at hfe
      by_cases hname : p.2.name ≠ []
      · rw [if_pos hname] at hfe
        cases hfe
        rw [toolCallIds_cons]
        rw [List.filter_cons]
        by_cases hid : p.2.id.isEmpty = true
        · rw [hid]
          simp only [Bool.not_true]
          rw [if_neg (by simp)]
          exact ih
        · rw [Bool.not_eq_true] at hid
          rw [hid]
          simp only [Bool.not_false]
          rw [if_pos trivial]
          rw [List.nodup_cons]
          refine ⟨?_, ih⟩
          intro hmem
          have := flush_ids_subset_keys rest hinvr p.2.id hmem
          rcases hinv p (List.mem_cons_self p rest) with h0 | h0
          · rw [h0] at hid; simp at hid
          · rw [h0] at this; exact hkey this
      · rw [if_neg hname] at hfe
        cases hfe

theorem flush_good (reorder : AccList → AccList) (accs : AccList)
    (hperm : ∀ l, (reorder l).Perm l) (hinv : AccsInv accs) :
    goodFlushBlock (flushToolCalls reorder accs) := by
  rw [flushToolCalls_eq]
  split
  next => exact ⟨fun x hx => absurd hx (by simp), by simp [toolCallIds]⟩
  next =>
    have hperm' := hperm accs
    have hnd : ((reorder accs).map Prod.fst).Nodup :=
      ((hperm'.map Prod.fst).nodup_iff).mpr hinv.1
    have hinv' : ∀ p ∈ reorder accs, p.2.id = [] ∨ p.2.id = p.1 :=
      fun p hp => hinv.2 p (hperm'.mem_iff.mp hp)
    constructor
    · intro x hx
      rcases List.mem_filterMap.mp hx with ⟨p, _, hfe⟩
      unfold flushEntry at hfe
      by_cases hname : p.2.name ≠ []
      · rw [if_pos hname] at hfe
        cases hfe
        exact ⟨p.2.id, p.2.name, p.2.arguments, rfl, hname⟩
      · rw [if_neg hname] at hfe
        cases hfe
    · exact flush_ids_nodup (reorder accs) hnd hinv'

theorem accApply_id (id name args : List Char) (entry : ToolCallAccumulator) :
    (accApply id name args entry).id = if id ≠ [] then id else entry.id := by
  unfold accApply
  by_cases hid : id ≠ [] <;> by_cases hn : name ≠ [] <;> by_cases ha : args ≠ [] <;>
    simp [hid, hn, ha]

theorem entryUpdate_keys (accs : AccList) (key : List Char)
    (init : ToolCallAccumulator) (f : ToolCallAccumulator → ToolCallAccumulator) :
    (entryUpdate accs key init f).map Prod.fst
      = if accs.any (fun p => p.1 == key) then accs.map Prod.fst
        else accs.map Prod.fst ++ [key] := by
  unfold entryUpdate
  split
  next h =>
    rw [List.map_map]
    exact List.map_congr_left fun p _ => by
      by_cases hp : p.1 = key
      · simp [hp]
      · simp [hp]
  next h => simp

theorem entryUpdate_nodup (accs : AccList) (key : List Char)
    (init : ToolCallAccumulator) (f : ToolCallAccumulator → ToolCallAccumulator)
    (hnd : (accs.map Prod.fst).Nodup) :
    ((entryUpdate accs key init f).map Prod.fst).Nodup := by
  rw [entryUpdate_keys]
  split
  next => exact hnd
  next h =>
    have hkey : key ∉ accs.map Prod.fst := by
      intro hmem
      rcases List.mem_map.mp hmem with ⟨p, hp, hp1⟩
      have h' : ∀ x : ToolCallAccumulator, (key, x) ∉ accs := by simpa using h
      have hp2 : (p.1, p.2) ∈ accs := hp
      rw [hp1] at hp2
      exact h' p.2 hp2
    rw [List.nodup_append]
    exact ⟨hnd, List.nodup_singleton key, by simpa using hkey⟩

theorem entryUpdate_acc_inv (accs : AccList) (key id name args : List Char)
    (hinv : ∀ p ∈ accs, p.2.id = [] ∨ p.2.id = p.1)
    (hkey : id = [] ∨ key = id) :
    ∀ p ∈ entryUpdate accs key ⟨id, name, []⟩ (accApply id name args),
      p.2.id = [] ∨ p.2.id = p.1 := by
  intro p hp
  unfold entryUpdate at hp
  split at hp
  next h =>
    rcases List.mem_map.mp hp with ⟨q, hq, hgq⟩
    by_cases hq1 : (q.1 == key) = true
    · rw [if_pos hq1] at hgq
      subst hgq
      have hq1' : q.1 = key := by simpa using hq1
      show (accApply id name args q.2).id = [] ∨ (accApply id name args q.2).id = q.1
      rw [accApply_id]
      by_cases hid : id ≠ []
      · rw [if_pos hid]
        rcases hkey with h0 | h0
        · exact absurd h0 hid
        · right; rw [hq1', h0]
      · rw [if_neg hid]
        exact hinv q hq
    · rw [if_neg hq1] at hgq
      subst hgq
      exact hinv q hq
  next h =>
    rcases List.mem_append.mp hp with hmem | hmem
    · exact hinv p hmem
    · have hpe : p = (key, accApply id name args ⟨id, name, []⟩) := by simpa using hmem
      subst hpe
      show (accApply id name args ⟨id, name, []⟩).id = [] ∨ _ = key
      rw [accApply_id]
      by_cases hid : id ≠ []
      · rw [if_pos hid]
        rcases hkey with h0 | h0
        · exact absurd h0 hid
        · right; rw [h0]
      · rw [if_neg hid]
        left
        simpa using hid

theorem accumulateChunks_inv : ∀ (tcs : List ToolCallChunk) (accs : AccList),
    AccsInv accs → AccsInv (accumulateChunks tcs accs)
  | [], accs, h => h
  | tc :: rest, accs, h => by
    show AccsInv (accumulateChunks rest _)
    refine accumulateChunks_inv rest _ ⟨?_, ?_⟩
    · exact entryUpdate_nodup _ _ _ _ h.1
    · refine entryUpdate_acc_inv _ _ _ _ _ h.2 ?_
      by_cases hid : (tc.id.getD []) = []
      · exact Or.inl hid
      · right; rw [if_pos hid]

theorem accumulateMessages_inv : ∀ (tcs : List ToolCall) (accs : AccList),
    AccsInv accs → AccsInv (accumulateMessages tcs accs)
  | [], accs, h => h
  | tc :: rest, accs, h => by
    show AccsInv (accumulateMessages rest _)
    refine accumulateMessages_inv rest _ ⟨?_, ?_⟩
    · exact entryUpdate_nodup _ _ _ _ h.1
    · refine entryUpdate_acc_inv _ _ _ _ _ h.2 ?_
      by_cases hid : tc.id = []
      · exact Or.inl hid
      · right; rw [if_pos hid]

theorem noDoneToolCall_nil : noDoneToolCall [] := fun x hx => absurd hx (by simp)

theorem noDoneToolCall_append {a b : List StreamItem}
    (ha : noDoneToolCall a) (hb : noDoneToolCall b) : noDoneToolCall (a ++ b) := by
  intro x hx
  rcases List.mem_append.mp hx with h | h
  · exact ha x h
  · exact hb x h

theorem optTextEvent_clean (o : Option (List Char)) : noDoneToolCall (optTextEvent o) := by
  cases o with
  | none => exact noDoneToolCall_nil
  | some t =>
    show noDoneToolCall (if t ≠ [] then [StreamItem.ev (.textDelta t)] else [])
    by_cases ht : t ≠ []
    · rw [if_pos ht]
      intro x hx
      have hx' : x = .ev (.textDelta t) := by simpa using hx
      subst hx'
      exact ⟨rfl, rfl⟩
    · rw [if_neg ht]
      exact noDoneToolCall_nil

theorem deltaEvents_clean (delta : RSDelta) : noDoneToolCall (deltaEvents delta) := by
  unfold deltaEvents
  exact noDoneToolCall_append
    (noDoneToolCall_append
      (noDoneToolCall_append (optTextEvent_clean _) (optTextEvent_clean _))
      (optTextEvent_clean _))
    (optTextEvent_clean _)

theorem choiceEvsDelta_clean (delta? : Option RSDelta) :
    noDoneToolCall (choiceEvsDelta delta?) := by
  unfold choiceEvsDelta
  cases delta? with
  | none => exact noDoneToolCall_nil
  | some delta => exact deltaEvents_clean delta

theorem choiceEvsMessage_clean (message? : Option Message) :
    noDoneToolCall (choiceEvsMessage message?) := by
  unfold choiceEvsMessage
  cases message? with
  | none => exact noDoneToolCall_nil
  | some msg =>
    show noDoneToolCall (if msg.text ≠ [] then [StreamItem.ev (.textDelta msg.text)] else [])
    by_cases ht : msg.text ≠ []
    · rw [if_pos ht]
      intro x hx
      have hx' : x = .ev (.textDelta msg.text) := by simpa using hx
      subst hx'
      exact ⟨rfl, rfl⟩
    · rw [if_neg ht]
      exact noDoneToolCall_nil

theorem choiceAccsDelta_inv (delta? : Option RSDelta) (accs : AccList)
    (h : AccsInv accs) : AccsInv (choiceAccsDelta delta? accs) := by
  unfold choiceAccsDelta
  cases delta? with
  | none => exact h
  | some delta =>
    dsimp only
    cases delta.tool_calls with
    | none => exact h
    | some tcs => exact accumulateChunks_inv tcs accs h

theorem choiceAccsMessage_inv (message? : Option Message) (accs : AccList)
    (h : AccsInv accs) : AccsInv (choiceAccsMessage message? accs) := by
  unfold choiceAccsMessage
  cases message? with
  | none => exact h
  | some msg =>
    dsimp only
    cases msg.tool_calls with
    | none => exact h
    | some tcs => exact accumulateMessages_inv tcs accs h

theorem processChoice_spec (reorder : AccList → AccList)
    (hperm : ∀ l, (reorder l).Perm l) (st : ParserAccState) (choice : RSChoice)
    (hinv : AccsInv st.accs) :
    AccsInv (processChoice reorder st choice).1.accs
    ∧ (st.sawFinish = true →
        (processChoice reorder st choice).1.sawFinish = true
        ∧ noDoneToolCall (processChoice reorder st choice).2)
    ∧ (st.sawFinish = false →
        ((processChoice reorder st choice).1.sawFinish = true
            ↔ choice.finish_reason.isSome = true)
        ∧ ((processChoice reorder st choice).1.sawFinish = false →
            noDoneToolCall (processChoice reorder st choice).2)
        ∧ (choice.finish_reason.isSome = true →
            ∃ A F, (processChoice reorder st choice).2 = A ++ F ++ [.ev .done]
              ∧ noDoneToolCall A ∧ goodFlushBlock F)) := by
  have hevs : noDoneToolCall
      (choiceEvsDelta choice.delta ++ choiceEvsMessage choice.message) :=
    noDoneToolCall_append (choiceEvsDelta_clean _) (choiceEvsMessage_clean _)
  have hinv2 : AccsInv
      (choiceAccsMessage choice.message (choiceAccsDelta choice.delta st.accs)) :=
    choiceAccsMessage_inv _ _ (choiceAccsDelta_inv _ _ hinv)
  unfold processChoice
  dsimp only
  split
  next hcond =>
    refine ⟨⟨by simp, by simp⟩, ?_, ?_⟩
    · intro htrue
      exact absurd htrue (by simpa using hcond.2)
    · intro _
      refine ⟨?_, ?_, ?_⟩
      · simp [hcond.1]
      · intro h
        simp at h
      · intro _
        exact ⟨choiceEvsDelta choice.delta ++ choiceEvsMessage choice.message,
          flushToolCalls reorder _, by simp, hevs,
          flush_good reorder _ hperm hinv2⟩
  next hcond =>
    refine ⟨hinv2, ?_, ?_⟩
    · intro htrue
      exact ⟨htrue, hevs⟩
    · intro hfalse
      refine ⟨⟨fun h => absurd h (by simp [hfalse]), ?_⟩, fun _ => hevs, ?_⟩
      · intro h
        exact absurd ⟨h, by simp [hfalse]⟩ hcond
      · intro h
        exact absurd ⟨h, by simp [hfalse]⟩ hcond

/-- Generic composition: if each step preserves the invariant, never
emits `Done`/`ToolCall` once the finish flag is up, raises the flag
exactly on finishing items, and on the finishing item emits a clean
prefix, a good flush block, one `Done` and a clean suffix — then the whole
fold does the same, with the flag raised iff some item finishes. -/
theorem stepFold_finish_spec {σ α : Type}
    (step : σ → α → σ × List StreamItem)
    (Inv : σ → Prop) (sawF : σ → Bool) (fin : α → Prop)
    (hstep : ∀ st x, Inv st →
      Inv (step st x).1
      ∧ (sawF st = true → sawF (step st x).1 = true ∧ noDoneToolCall (step st x).2)
      ∧ (sawF st = false →
          (sawF (step st x).1 = true ↔ fin x)
          ∧ (sawF (step st x).1 = false → noDoneToolCall (step st x).2)
          ∧ (fin x → ∃ A F B, (step st x).2 = A ++ F ++ .ev .done :: B
              ∧ noDoneToolCall A ∧ goodFlushBlock F ∧ noDoneToolCall B))) :
    ∀ (l : List α) (st : σ), Inv st →
      Inv (stepFold step st l).1
      ∧ (sawF st = true → sawF (stepFold step st l).1 = true
          ∧ noDoneToolCall (stepFold step st l).2)
      ∧ (sawF st = false →
          (sawF (stepFold step st l).1 = true ↔ ∃ x ∈ l, fin x)
          ∧ (sawF (stepFold step st l).1 = false →
              noDoneToolCall (stepFold step st l).2)
          ∧ (sawF (stepFold step st l).1 = true →
              ∃ A F B, (stepFold step st l).2 = A ++ F ++ .ev .done :: B
                ∧ noDoneToolCall A ∧ goodFlushBlock F ∧ noDoneToolCall B))
  | [], st, hinv => by
    refine ⟨hinv, fun h => ⟨h, noDoneToolCall_nil⟩, fun hfalse => ⟨?_, ?_, ?_⟩⟩
    · show (sawF st = true ↔ _)
      rw [hfalse]
      simp
    · intro _
      exact noDoneToolCall_nil
    · intro h
      have h' : sawF st = true := h
      rw [hfalse] at h'
      simp at h'
  | x :: rest, st, hinv => by
    obtain ⟨pcInv, pcTrue, pcFalse⟩ := hstep st x hinv
    obtain ⟨ihInv, ihTrue, ihFalse⟩ :=
      stepFold_finish_spec step Inv sawF fin hstep rest (step st x).1 pcInv
    rw [stepFold_cons]
    dsimp only
    refine ⟨ihInv, ?_, ?_⟩
    · intro htrue
      obtain ⟨h1, hclean1⟩ := pcTrue htrue
      obtain ⟨h2, hclean2⟩ := ihTrue h1
      exact ⟨h2, noDoneToolCall_append hclean1 hclean2⟩
    · intro hfalse
      by_cases hsaw1 : sawF (step st x).1 = true
      · -- the head item finished
        have hfin : fin x := ((pcFalse hfalse).1).mp hsaw1
        obtain ⟨A, F, B, hout, hA, hF, hB⟩ := (pcFalse hfalse).2.2 hfin
        obtain ⟨hfin2, hclean2⟩ := ihTrue hsaw1
        refine ⟨?_, ?_, ?_⟩
        · rw [hfin2]
          simp only [true_iff]
          exact ⟨x, List.mem_cons_self x rest, hfin⟩
        · intro h
          rw [hfin2] at h
          cases h
        · intro _
          refine ⟨A, F, B ++ (stepFold step (step st x).1 rest).2, ?_,
            hA, hF, noDoneToolCall_append hB hclean2⟩
          rw [hout]
          simp
      · -- the head item did not finish
        have hsaw1' : sawF (step st x).1 = false := by
          cases h : sawF (step st x).1
          · rfl
          · exact absurd h hsaw1
        have hfinx : ¬fin x := fun hf => hsaw1 (((pcFalse hfalse).1).mpr hf)
        have hclean1 : noDoneToolCall (step st x).2 := (pcFalse hfalse).2.1 hsaw1'
        obtain ⟨ihIff, ihClean, ihDecomp⟩ := ihFalse hsaw1'
        refine ⟨?_, ?_, ?_⟩
        · rw [ihIff]
          constructor
          · rintro ⟨y, hy, hfy⟩
            exact ⟨y, List.mem_cons_of_mem x hy, hfy⟩
          · rintro ⟨y, hy, hfy⟩
            rcases List.mem_cons.mp hy with h | h
            · subst h
              exact absurd hfy hfinx
            · exact ⟨y, h, hfy⟩
        · intro h
          exact noDoneToolCall_append hclean1 (ihClean h)
        · intro h
          obtain ⟨A, F, B, hout, hA, hF, hB⟩ := ihDecomp h
          refine ⟨(step st x).2 ++ A, F, B, ?_,
            noDoneToolCall_append hclean1 hA, hF, hB⟩
          rw [hout]
          simp

theorem runLinesRec_eq_stepFold (dec : List Char → Option RSResult)
    (reorder : AccList → AccList) (debug_raw : Bool) :
    ∀ (L : List (List Char)) (st : ParserAccState),
    runLinesRec dec reorder debug_raw st L
      = stepFold (processLine dec reorder debug_raw) st L
  | [], _ => rfl
  | l :: rest, st => by
    rw [runLinesRec_cons, stepFold_cons]
    rw [runLinesRec_eq_stepFold dec reorder debug_raw rest]

theorem processData_spec (dec : List Char → Option RSResult)
    (reorder : AccList → AccList) (debug_raw : Bool)
    (hperm : ∀ l, (reorder l).Perm l) (st : ParserAccState) (data : List Char)
    (hinv : AccsInv st.accs) :
    AccsInv (processData dec reorder debug_raw st data).1.accs
    ∧ (st.sawFinish = true →
        (processData dec reorder debug_raw st data).1.sawFinish = true
        ∧ noDoneToolCall (processData dec reorder debug_raw st data).2)
    ∧ (st.sawFinish = false →
        ((processData dec reorder debug_raw st data).1.sawFinish = true
            ↔ isFinishData dec data)
        ∧ ((processData dec reorder debug_raw st data).1.sawFinish = false →
            noDoneToolCall (processData dec reorder debug_raw st data).2)
        ∧ (isFinishData dec data →
            ∃ A F B, (processData dec reorder debug_raw st data).2
                = A ++ F ++ .ev .done :: B
              ∧ noDoneToolCall A ∧ goodFlushBlock F ∧ noDoneToolCall B)) := by
  have hraw : noDoneToolCall
      (if debug_raw then [StreamItem.ev (.raw data)] else []) := by
    split
    · intro x hx
      have hx' : x = .ev (.raw data) := by simpa using hx
      subst hx'
      exact ⟨rfl, rfl⟩
    · exact noDoneToolCall_nil
  by_cases he : data.isEmpty = true
  · have hred : processData dec reorder debug_raw st data = (st, []) := by
      unfold processData
      rw [if_pos he]
    rw [hred]
    refine ⟨hinv, fun h => ⟨h, noDoneToolCall_nil⟩, fun hfalse => ⟨?_, ?_, ?_⟩⟩
    · show st.sawFinish = true ↔ _
      rw [hfalse]
      constructor
      · intro h; cases h
      · rintro ⟨hne, _⟩; exact absurd he hne
    · intro _; exact noDoneToolCall_nil
    · rintro ⟨hne, _⟩; exact absurd he hne
  · by_cases hdone : data = "[DONE]".data
    · -- the [DONE] sentinel
      by_cases hsf : st.sawFinish = true
      · have hred : processData dec reorder debug_raw st data
            = (st, if debug_raw then [StreamItem.ev (.raw data)] else []) := by
          unfold processData
          rw [if_neg he, if_pos hdone, if_neg (by simp [hsf])]
        rw [hred]
        exact ⟨hinv, fun h => ⟨h, hraw⟩, fun hfalse => absurd hsf (by simp [hfalse])⟩
      · have hsf' : st.sawFinish = false := by
          cases h : st.sawFinish
          · rfl
          · exact absurd h hsf
        have hred : processData dec reorder debug_raw st data
            = (⟨[], true⟩, (if debug_raw then [StreamItem.ev (.raw data)] else [])
                ++ flushToolCalls reorder st.accs ++ [.ev .done]) := by
          unfold processData
          rw [if_neg he, if_pos hdone, if_pos (by simp [hsf'])]
        rw [hred]
        refine ⟨⟨by simp, by simp⟩, fun h => absurd h hsf, fun _ => ⟨?_, ?_, ?_⟩⟩
        · simp only [true_iff]
          exact ⟨he, Or.inl hdone⟩
        · intro h; simp at h
        · intro _
          exact ⟨if debug_raw then [StreamItem.ev (.raw data)] else [],
            flushToolCalls reorder st.accs, [], by simp, hraw,
            flush_good reorder st.accs hperm hinv, noDoneToolCall_nil⟩
    · -- a JSON payload
      cases hdec : dec data with
      | none =>
        have hred : processData dec reorder debug_raw st data
            = (st, (if debug_raw then [StreamItem.ev (.raw data)] else [])
                ++ [.jsonParseError]) := by
          unfold processData
          rw [if_neg he, if_neg hdone, hdec]
        rw [hred]
        have hclean : noDoneToolCall
            ((if debug_raw then [StreamItem.ev (.raw data)] else [])
              ++ [StreamItem.jsonParseError]) := by
          refine noDoneToolCall_append hraw ?_
          intro x hx
          have hx' : x = .jsonParseError := by simpa using hx
          subst hx'
          exact ⟨rfl, rfl⟩
        refine ⟨hinv, fun h => ⟨h, hclean⟩, fun hfalse => ⟨?_, fun _ => hclean, ?_⟩⟩
        · rw [hfalse]
          constructor
          · intro h; cases h
          · rintro ⟨_, h | ⟨r, hr, _, _⟩⟩
            · exact absurd h hdone
            · rw [hdec] at hr; cases hr
        · rintro ⟨_, h | ⟨r, hr, _, _⟩⟩
          · exact absurd h hdone
          · rw [hdec] at hr; cases hr
      | some result =>
        cases herr : result.error with
        | some err =>
          have hred : processData dec reorder debug_raw st data
              = (st, (if debug_raw then [StreamItem.ev (.raw data)] else [])
                  ++ [.streamError err.message]) := by
            unfold processData
            rw [if_neg he, if_neg hdone, hdec]
            dsimp only
            rw [herr]
          rw [hred]
          have hclean : noDoneToolCall
              ((if debug_raw then [StreamItem.ev (.raw data)] else [])
                ++ [StreamItem.streamError err.message]) := by
            refine noDoneToolCall_append hraw ?_
            intro x hx
            have hx' : x = .streamError err.message := by simpa using hx
            subst hx'
            exact ⟨rfl, rfl⟩
          refine ⟨hinv, fun h => ⟨h, hclean⟩, fun hfalse => ⟨?_, fun _ => hclean, ?_⟩⟩
          · rw [hfalse]
            constructor
            · intro h; cases h
            · rintro ⟨_, h | ⟨r, hr, hrerr, _⟩⟩
              · exact absurd h hdone
              · rw [hdec] at hr
                cases hr
                rw [herr] at hrerr
                cases hrerr
          · rintro ⟨_, h | ⟨r, hr, hrerr, _⟩⟩
            · exact absurd h hdone
            · rw [hdec] at hr
              cases hr
              rw [herr] at hrerr
              cases hrerr
        | none =>
          have hred : processData dec reorder debug_raw st data
              = ((stepFold (processChoice reorder) st result.choices).1,
                 (if debug_raw then [StreamItem.ev (.raw data)] else [])
                   ++ (stepFold (processChoice reorder) st result.choices).2) := by
            unfold processData
            rw [if_neg he, if_neg hdone, hdec]
            dsimp only
            rw [herr]
            rw [stepFold_eq_foldl]
          rw [hred]
          have hstepC : ∀ (s : ParserAccState) (c : RSChoice), AccsInv s.accs →
              AccsInv (processChoice reorder s c).1.accs
              ∧ (s.sawFinish = true →
                  (processChoice reorder s c).1.sawFinish = true
                  ∧ noDoneToolCall (processChoice reorder s c).2)
              ∧ (s.sawFinish = false →
                  ((processChoice reorder s c).1.sawFinish = true
                      ↔ c.finish_reason.isSome = true)
                  ∧ ((processChoice reorder s c).1.sawFinish = false →
                      noDoneToolCall (processChoice reorder s c).2)
                  ∧ (c.finish_reason.isSome = true →
                      ∃ A F B, (processChoice reorder s c).2
                          = A ++ F ++ .ev .done :: B
                        ∧ noDoneToolCall A ∧ goodFlushBlock F ∧ noDoneToolCall B)) := by
            intro s c hin
            obtain ⟨h1, h2, h3⟩ := processChoice_spec reorder hperm s c hin
            refine ⟨h1, h2, fun hf => ⟨(h3 hf).1, (h3 hf).2.1, fun hfin => ?_⟩⟩
            obtain ⟨A, F, hout, hA, hF⟩ := (h3 hf).2.2 hfin
            exact ⟨A, F, [], by rw [hout], hA, hF, noDoneToolCall_nil⟩
          obtain ⟨sInv, sTrue, sFalse⟩ :=
            stepFold_finish_spec (processChoice reorder)
              (fun s => AccsInv s.accs) (fun s => s.sawFinish)
              (fun c => c.finish_reason.isSome = true) hstepC result.choices st hinv
          refine ⟨sInv, ?_, ?_⟩
          · intro htrue
            obtain ⟨h1, h2⟩ := sTrue htrue
            exact ⟨h1, noDoneToolCall_append hraw h2⟩
          · intro hfalse
            obtain ⟨sIff, sClean, sDecomp⟩ := sFalse hfalse
            refine ⟨?_, ?_, ?_⟩
            · rw [sIff]
              constructor
              · intro hc
                exact ⟨he, Or.inr ⟨result, hdec, herr, hc⟩⟩
              · rintro ⟨_, h | ⟨r, hr, _, hc⟩⟩
                · exact absurd h hdone
                · rw [hdec] at hr
                  cases hr
                  exact hc
            · intro h
              exact noDoneToolCall_append hraw (sClean h)
            · intro hfin
              have hs : (stepFold (processChoice reorder) st result.choices).1.sawFinish
                  = true := by
                rw [sIff]
                rcases hfin with ⟨_, h | ⟨r, hr, _, hc⟩⟩
                · exact absurd h hdone
                · rw [hdec] at hr
                  cases hr
                  exact hc
              obtain ⟨A, F, B, hout, hA, hF, hB⟩ := sDecomp hs
              refine ⟨(if debug_raw then [StreamItem.ev (.raw data)] else []) ++ A,
                F, B, ?_, noDoneToolCall_append hraw hA, hF, hB⟩
              rw [hout]
              simp

theorem processLine_spec (dec : List Char → Option RSResult)
    (reorder : AccList → AccList) (debug_raw : Bool)
    (hperm : ∀ l, (reorder l).Perm l) (st : ParserAccState) (line : List Char)
    (hinv : AccsInv st.accs) :
    AccsInv (processLine dec reorder debug_raw st line).1.accs
    ∧ (st.sawFinish = true →
        (processLine dec reorder debug_raw st line).1.sawFinish = true
        ∧ noDoneToolCall (processLine dec reorder debug_raw st line).2)
    ∧ (st.sawFinish = false →
        ((processLine dec reorder debug_raw st line).1.sawFinish = true
            ↔ isFinishLine dec line)
        ∧ ((processLine dec reorder debug_raw st line).1.sawFinish = false →
            noDoneToolCall (processLine dec reorder debug_raw st line).2)
        ∧ (isFinishLine dec line →
            ∃ A F B, (processLine dec reorder debug_raw st line).2
                = A ++ F ++ .ev .done :: B
              ∧ noDoneToolCall A ∧ goodFlushBlock F ∧ noDoneToolCall B)) := by
  unfold processLine
  cases hdl : dataOfLine line with
  | none =>
    have hfl : ¬isFinishLine dec line := by
      intro hf
      unfold isFinishLine at hf
      rw [hdl] at hf
      exact hf
    refine ⟨hinv, fun h => ⟨h, noDoneToolCall_nil⟩,
      fun hfalse => ⟨?_, fun _ => noDoneToolCall_nil, fun hf => absurd hf hfl⟩⟩
    show st.sawFinish = true ↔ _
    rw [hfalse]
    constructor
    · intro h; cases h
    · intro hf; exact absurd hf hfl
  | some data =>
    have hfl : isFinishLine dec line ↔ isFinishData dec data := by
      unfold isFinishLine
      rw [hdl]
    obtain ⟨h1, h2, h3⟩ := processData_spec dec reorder debug_raw hperm st data hinv
    refine ⟨h1, h2, fun hfalse => ⟨?_, (h3 hfalse).2.1,
      fun hf => (h3 hfalse).2.2 (hfl.mp hf)⟩⟩
    rw [(h3 hfalse).1, hfl]

theorem isToolCallItem_false_name (x : StreamItem) (h : isToolCallItem x = false) :
    toolCallName x = none := by
  cases x with
  | ev e =>
    cases e with
    | textDelta t => rfl
    | toolCall id name args => simp [isToolCallItem] at h
    | raw d => rfl
    | done => rfl
  | jsonParseError => rfl
  | streamError m => rfl

theorem noDoneToolCall_filter_done (l : List StreamItem) (h : noDoneToolCall l) :
    l.filter isDoneItem = [] := by
  rw [List.filter_eq_nil]
  intro x hx
  rw [(h x hx).1]
  simp

theorem noDoneToolCall_ids (l : List StreamItem) (h : noDoneToolCall l) :
    toolCallIds l = [] := by
  unfold toolCallIds
  rw [List.filterMap_eq_nil]
  intro x hx
  have := (h x hx).2
  cases x with
  | ev e => cases e <;> simp_all [isToolCallItem]
  | jsonParseError => rfl
  | streamError m => rfl

theorem toolCallIds_append (a b : List StreamItem) :
    toolCallIds (a ++ b) = toolCallIds a ++ toolCallIds b :=
  List.filterMap_append a b _

theorem goodFlush_filter_done (F : List StreamItem) (h : goodFlushBlock F) :
    F.filter isDoneItem = [] := by
  rw [List.filter_eq_nil]
  intro x hx
  obtain ⟨id, name, args, hx', _⟩ := h.1 x hx
  subst hx'
  simp [isDoneItem]

theorem unique_sep {α : Type} (x : α) : ∀ (A B C D : List α), x ∉ A → x ∉ B →
    A ++ x :: B = C ++ x :: D → A = C ∧ B = D
  | [], B, [], D, _, _, h => by simpa using h
  | [], B, c :: C', D, _, hB, h => by
    simp only [List.nil_append, List.cons_append, List.cons.injEq] at h
    exact absurd (h.2 ▸ List.mem_append_right C' (List.mem_cons_self x D)) hB
  | a :: A', B, [], D, hA, _, h => by
    simp only [List.nil_append, List.cons_append, List.cons.injEq] at h
    exact absurd (h.1 ▸ List.mem_cons_self a A') hA
  | a :: A', B, c :: C', D, hA, hB, h => by
    simp only [List.cons_append, List.cons.injEq] at h
    have hA' : x ∉ A' := fun hm => hA (List.mem_cons_of_mem a hm)
    obtain ⟨h1, h2⟩ := unique_sep x A' B C' D hA' hB h.2
    exact ⟨by rw [h.1, h1], h2⟩

/-- The SSE parser output on char chunks, reduced to the line machine on
the stream's complete lines. -/
theorem parseCharChunks_eq_lines (dec : List Char → Option RSResult)
    (reorder : AccList → AccList) (debug_raw : Bool) (chunks : List (List Char)) :
    parseCharChunks dec reorder debug_raw chunks
      = (stepFold (processLine dec reorder debug_raw) ⟨[], false⟩ (sseLines chunks)).2 := by
  rw [parseCharChunks_eq_steps]
  rw [parseSteps_eq_simplified dec reorder debug_raw chunks initParserState
    (by simp [initParserState])]
  rw [parseStepsS_flatten dec reorder debug_raw chunks initParserState
    (by simp [initParserState])]
  show (runLines dec reorder debug_raw ⟨[], false⟩
    (splitComplete ([] ++ chunks.flatten)).1).2 = _
  rw [List.nil_append]
  rw [runLines_eq_rec, runLinesRec_eq_stepFold]
  rfl

/-! ### C3: finish handling — flush, single Done, id uniqueness -/

/-- C3 (amended): for every SSE input (any chunking, any JSON oracle, any
admissible `HashMap` enumeration order), at most one `Done` is emitted and
exactly one iff some line carries a finish signal; every item after the
`Done` is neither a `ToolCall` nor a `Done` (so all `ToolCall`s precede
`Done` and later finish signals are inert); every emitted `ToolCall` has a
non-empty name; and the *non-empty* ids of the emitted `ToolCall`s are
pairwise distinct.  (The claim's unconditional id uniqueness fails: absent
ids default to the empty string and may repeat, see the counterexample.) -/
theorem C3_finish_discipline (dec : List Char → Option RSResult)
    (reorder : AccList → AccList) (hperm : ∀ l, (reorder l).Perm l)
    (debug_raw : Bool) (chunks : List (List Char)) :
    ((parseCharChunks dec reorder debug_raw chunks).filter isDoneItem).length ≤ 1
    ∧ (((parseCharChunks dec reorder debug_raw chunks).filter isDoneItem).length = 1
        ↔ ∃ l ∈ sseLines chunks, isFinishLine dec l)
    ∧ (∀ pre post,
        parseCharChunks dec reorder debug_raw chunks = pre ++ .ev .done :: post →
        noDoneToolCall post)
    ∧ (∀ x ∈ parseCharChunks dec reorder debug_raw chunks, toolCallName x ≠ some [])
    ∧ ((toolCallIds (parseCharChunks dec reorder debug_raw chunks)).filter
        (fun id => !id.isEmpty)).Nodup := by
  have hstepL : ∀ (s : ParserAccState) (l : List Char), AccsInv s.accs →
      AccsInv (processLine dec reorder debug_raw s l).1.accs
      ∧ (s.sawFinish = true →
          (processLine dec reorder debug_raw s l).1.sawFinish = true
          ∧ noDoneToolCall (processLine dec reorder debug_raw s l).2)
      ∧ (s.sawFinish = false →
          ((processLine dec reorder debug_raw s l).1.sawFinish = true
              ↔ isFinishLine dec l)
          ∧ ((processLine dec reorder debug_raw s l).1.sawFinish = false →
              noDoneToolCall (processLine dec reorder debug_raw s l).2)
          ∧ (isFinishLine dec l →
              ∃ A F B, (processLine dec reorder debug_raw s l).2
                  = A ++ F ++ .ev .done :: B
                ∧ noDoneToolCall A ∧ goodFlushBlock F ∧ noDoneToolCall B)) :=
    fun s l hin => processLine_spec dec reorder debug_raw hperm s l hin
  obtain ⟨_, _, hFalse⟩ :=
    stepFold_finish_spec (processLine dec reorder debug_raw)
      (fun s => AccsInv s.accs) (fun s => s.sawFinish) (isFinishLine dec) hstepL
      (sseLines chunks) ⟨[], false⟩ ⟨List.nodup_nil, by simp⟩
  obtain ⟨hIff, hClean, hDecomp⟩ := hFalse rfl
  rw [parseCharChunks_eq_lines dec reorder debug_raw chunks]
  set out := (stepFold (processLine dec reorder debug_raw) ⟨[], false⟩ (sseLines chunks)).2 with hout
  by_cases hsaw : (stepFold (processLine dec reorder debug_raw) ⟨[], false⟩
      (sseLines chunks)).1.sawFinish = true
  · obtain ⟨A, F, B, hdecomp, hA, hF, hB⟩ := hDecomp hsaw
    have hfilter : out.filter isDoneItem = [.ev .done] := by
      rw [hdecomp]
      rw [List.filter_append, List.filter_append, List.filter_cons]
      rw [noDoneToolCall_filter_done A hA, goodFlush_filter_done F hF,
        noDoneToolCall_filter_done B hB]
      simp [isDoneItem]
    refine ⟨by rw [hfilter]; simp, ?_, ?_, ?_, ?_⟩
    · rw [hfilter]
      simp only [List.length_singleton, true_iff]
      exact hIff.mp hsaw
    · intro pre post hsplit
      have hnA : StreamItem.ev .done ∉ A ++ F := by
        intro hm
        rcases List.mem_append.mp hm with hm | hm
        · have := (hA _ hm).1
          simp [isDoneItem] at this
        · obtain ⟨id, name, args, hx, _⟩ := hF.1 _ hm
          cases hx
      have hnB : StreamItem.ev .done ∉ B := by
        intro hm
        have := (hB _ hm).1
        simp [isDoneItem] at this
      have hsplit' : (A ++ F) ++ .ev .done :: B = pre ++ .ev .done :: post := by
        rw [← hsplit, hdecomp, List.append_assoc]
      obtain ⟨_, h2⟩ := unique_sep (StreamItem.ev .done) (A ++ F) B pre post hnA hnB hsplit'
      rw [← h2]
      exact hB
    · intro x hx
      rw [hdecomp] at hx
      rcases List.mem_append.mp hx with hm | hm
      · rcases List.mem_append.mp hm with hm' | hm'
        · rw [isToolCallItem_false_name x (hA _ hm').2]
          simp
        · obtain ⟨id, name, args, hx', hname⟩ := hF.1 _ hm'
          subst hx'
          simpa [toolCallName] using hname
      · rcases List.mem_cons.mp hm with hm' | hm'
        · subst hm'
          simp [toolCallName]
        · rw [isToolCallItem_false_name x (hB _ hm').2]
          simp
    · have hids : toolCallIds out = toolCallIds F := by
        rw [hdecomp, toolCallIds_append, toolCallIds_append]
        rw [noDoneToolCall_ids A hA]
        have : toolCallIds (StreamItem.ev .done :: B) = toolCallIds B := by
          rw [toolCallIds_cons]
        rw [this, noDoneToolCall_ids B hB]
        simp
      rw [hids]
      exact hF.2
  · have hsaw' : (stepFold (processLine dec reorder debug_raw) ⟨[], false⟩
        (sseLines chunks)).1.sawFinish = false := by
      cases h : (stepFold (processLine dec reorder debug_raw) ⟨[], false⟩
          (sseLines chunks)).1.sawFinish
      · rfl
      · exact absurd h hsaw
    have hclean := hClean hsaw'
    have hfilter : out.filter isDoneItem = [] := noDoneToolCall_filter_done out hclean
    refine ⟨by rw [hfilter]; simp, ?_, ?_, ?_, ?_⟩
    · rw [hfilter]
      simp only [List.length_nil]
      constructor
      · intro h; cases h
      · intro hex
        exact absurd (hIff.mpr hex) hsaw
    · intro pre post hsplit
      have : StreamItem.ev .done ∈ out := by
        rw [hsplit]
        exact List.mem_append_right pre (List.mem_cons_self _ post)
      have := (hclean _ this).1
      simp [isDoneItem] at this
    · intro x hx
      rw [isToolCallItem_false_name x (hclean x hx).2]
      simp
    · rw [noDoneToolCall_ids out hclean]
      simp

/-- C3 witness: with the identity `HashMap` order (admissible) and a
stream consisting of one `data: [DONE]` line, the discipline holds. -/
theorem C3_finish_discipline_witness :
    (∀ l : AccList, (id l).Perm l)
    ∧ ((parseCharChunks (fun _ => none) id false ["data: [DONE]\n".data]).filter
        isDoneItem).length ≤ 1 :=
  ⟨fun l => List.Perm.refl l,
    (C3_finish_discipline (fun _ => none) id (fun l => List.Perm.refl l) false
      ["data: [DONE]\n".data]).1⟩

/-- C3 counterexample to unconditional id uniqueness: two streamed tool
calls that carry no `id` field are keyed by `index:0` / `index:1` but both
keep the accumulator's default empty id, so the parser emits two
`ToolCall` events whose ids are both the empty string — the emitted ids
are not pairwise distinct. -/
theorem C3_duplicate_empty_ids :
    parseCharChunks c3Dec id false [c3Stream] =
      [.ev (.toolCall [] "alpha".data "\x7b\x7d".data),
       .ev (.toolCall [] "beta".data "\x7b\x7d".data),
       .ev .done]
    ∧ ¬(toolCallIds (parseCharChunks c3Dec id false [c3Stream])).Nodup := by
  refine ⟨by decide, by decide⟩

/-! ### C2: ordering of tool-call collection, execution and flush -/

theorem innerLoop_toolCalls_prefix {V : Type} (debug_raw : Bool) :
    ∀ (items : List StreamItem) (st : TurnState),
    ∃ pre, pre <+: items
      ∧ (innerLoop (V := V) debug_raw st items).1.toolCalls
        = st.toolCalls ++ pre.filterMap toolCallOfEvent
  | [], st => ⟨[], List.nil_prefix, by simp [innerLoop]⟩
  | item :: rest, st => by
    cases item with
    | ev e =>
      cases e with
      | textDelta t =>
        by_cases ht : t ≠ []
        · obtain ⟨pre, hpre, heq⟩ := innerLoop_toolCalls_prefix debug_raw rest
            { st with assistantText := st.assistantText ++ t, sawOutput := true }
          refine ⟨.ev (.textDelta t) :: pre, List.cons_prefix_cons.mpr ⟨rfl, hpre⟩, ?_⟩
          show (innerLoop (V := V) debug_raw _ (.ev (.textDelta t) :: rest)).1.toolCalls = _
          rw [innerLoop, if_pos ht]
          exact heq
        · obtain ⟨pre, hpre, heq⟩ := innerLoop_toolCalls_prefix (V := V) debug_raw rest st
          refine ⟨.ev (.textDelta t) :: pre, List.cons_prefix_cons.mpr ⟨rfl, hpre⟩, ?_⟩
          show (innerLoop (V := V) debug_raw _ (.ev (.textDelta t) :: rest)).1.toolCalls = _
          rw [innerLoop, if_neg ht]
          rw [heq]
          rfl
      | toolCall id name arguments =>
        obtain ⟨pre, hpre, heq⟩ := innerLoop_toolCalls_prefix (V := V) debug_raw rest
          { st with toolCalls := st.toolCalls ++ [ToolCall.new id name arguments]
                    sawOutput := true }
        refine ⟨.ev (.toolCall id name arguments) :: pre,
          List.cons_prefix_cons.mpr ⟨rfl, hpre⟩, ?_⟩
        show (innerLoop (V := V) debug_raw _
          (.ev (.toolCall id name arguments) :: rest)).1.toolCalls = _
        rw [innerLoop]
        rw [heq]
        show (st.toolCalls ++ [ToolCall.new id name arguments])
            ++ pre.filterMap toolCallOfEvent = _
        rw [List.filterMap_cons]
        show _ = st.toolCalls ++ (ToolCall.new id name arguments
          :: pre.filterMap toolCallOfEvent)
        rw [List.append_assoc]
        rfl
      | raw r =>
        obtain ⟨pre, hpre, heq⟩ := innerLoop_toolCalls_prefix (V := V) debug_raw rest st
        refine ⟨.ev (.raw r) :: pre, List.cons_prefix_cons.mpr ⟨rfl, hpre⟩, ?_⟩
        show (innerLoop (V := V) debug_raw _ (.ev (.raw r) :: rest)).1.toolCalls = _
        rw [innerLoop]
        by_cases hd : debug_raw
        · rw [if_pos hd]
          rw [heq]
          rfl
        · rw [if_neg hd]
          exact heq
      | done =>
        by_cases ho : st.sawOutput
        · refine ⟨[], List.nil_prefix, ?_⟩
          show (innerLoop (V := V) debug_raw _ (.ev .done :: rest)).1.toolCalls = _
          rw [innerLoop, if_pos ho]
          simp
        · obtain ⟨pre, hpre, heq⟩ := innerLoop_toolCalls_prefix (V := V) debug_raw rest st
          refine ⟨.ev .done :: pre, List.cons_prefix_cons.mpr ⟨rfl, hpre⟩, ?_⟩
          show (innerLoop (V := V) debug_raw _ (.ev .done :: rest)).1.toolCalls = _
          rw [innerLoop, if_neg ho]
          exact heq
    | jsonParseError =>
      exact ⟨[], List.nil_prefix, by simp [innerLoop]⟩
    | streamError m =>
      exact ⟨[], List.nil_prefix, by simp [innerLoop]⟩

theorem runToolPhase_order {V : Type} (parseArg : List Char → V)
    (runTool : List Char → V → Except (List Char) (List Char)) :
    ∀ (calls : List ToolCall),
    runToolPhase parseArg runTool calls
      = (calls.flatMap (fun tc =>
           [.toolStart tc.function.name (parseArg tc.function.arguments),
            .toolResult tc.function.name (toolResultText parseArg runTool tc).1
              (toolResultText parseArg runTool tc).2]),
         calls.map (fun tc =>
           Message.tool_result tc.id (toolResultText parseArg runTool tc).1))
  | [] => rfl
  | tc :: rest => by
    have ih := runToolPhase_order parseArg runTool rest
    show runToolPhase parseArg runTool (tc :: rest) = _
    rw [List.flatMap_cons, List.map_cons]
    unfold runToolPhase
    dsimp only
    rw [ih]
    dsimp only
    unfold toolResultText
    cases hrt : runTool tc.function.name (parseArg tc.function.arguments) with
    | ok output => rfl
    | error err => rfl

/-- C2 (amended): within one run the agent is strictly order-preserving —
the tool calls it collects are exactly those of a prefix of the parser's
item stream, in stream order, and the tool phase emits
`ToolStart`/`ToolResult` pairs and appends the tool-role result messages
in exactly that order; the parser's flush, however, emits the accumulated
tool calls in the `HashMap`'s value-iteration order, which is only
guaranteed to be *a permutation* of the first-observation (insertion)
order — not that order itself (see the counterexample). -/
theorem C2_sequential_order :
    (∀ (V : Type) (debug_raw : Bool) (items : List StreamItem) (st : TurnState),
      ∃ pre, pre <+: items
        ∧ (innerLoop (V := V) debug_raw st items).1.toolCalls
          = st.toolCalls ++ pre.filterMap toolCallOfEvent)
    ∧ (∀ (V : Type) (parseArg : List Char → V)
         (runTool : List Char → V → Except (List Char) (List Char))
         (calls : List ToolCall),
        runToolPhase parseArg runTool calls
          = (calls.flatMap (fun tc =>
               [.toolStart tc.function.name (parseArg tc.function.arguments),
                .toolResult tc.function.name (toolResultText parseArg runTool tc).1
                  (toolResultText parseArg runTool tc).2]),
             calls.map (fun tc =>
               Message.tool_result tc.id (toolResultText parseArg runTool tc).1)))
    ∧ (∀ (reorder : AccList → AccList), (∀ l, (reorder l).Perm l) →
        ∀ (accs : AccList),
        (flushToolCalls reorder accs).Perm (flushToolCalls id accs)) := by
  refine ⟨fun V debug_raw items st => innerLoop_toolCalls_prefix debug_raw items st,
    fun V parseArg runTool calls => runToolPhase_order parseArg runTool calls,
    fun reorder hperm accs => ?_⟩
  rw [flushToolCalls_eq, flushToolCalls_eq]
  by_cases he : accs.isEmpty
  · rw [if_pos he, if_pos he]
  · rw [if_neg he, if_neg he]
    exact List.Perm.filterMap flushEntry (hperm accs)

/-- C2 witness: the order facts at a one-call stream and the flush
permutation at the identity enumeration. -/
theorem C2_sequential_order_witness :
    (∃ pre, pre <+: [StreamItem.ev (.toolCall "a".data "f".data [])]
      ∧ (innerLoop (V := Unit) false ⟨[], [], false⟩
          [StreamItem.ev (.toolCall "a".data "f".data [])]).1.toolCalls
        = TurnState.toolCalls ⟨[], [], false⟩ ++ pre.filterMap toolCallOfEvent)
    ∧ ((∀ l : AccList, (id l).Perm l)
       ∧ (flushToolCalls id [("a".data, ⟨"a".data, "f".data, []⟩)]).Perm
           (flushToolCalls id [("a".data, ⟨"a".data, "f".data, []⟩)])) :=
  ⟨C2_sequential_order.1 Unit false [StreamItem.ev (.toolCall "a".data "f".data [])]
      ⟨[], [], false⟩,
   fun l => List.Perm.refl l,
   C2_sequential_order.2.2 id (fun l => List.Perm.refl l)
     [("a".data, ⟨"a".data, "f".data, []⟩)]⟩

/-- C2 counterexample to the parser-order half of the claim: the stream
observes tool call `a` strictly before `b`, yet under the admissible
`HashMap` enumeration `List.reverse` (a permutation of the entries) the
parser flushes `b` before `a`.  The claim's "emitted in the order first
observed" therefore does not hold for every `HashMap` iteration order —
`HashMap::values()` gives no such guarantee. -/
theorem C2_flush_order_counterexample :
    (∀ l : AccList, l.reverse.Perm l)
    ∧ parseCharChunks c2Dec id false [c2Stream] =
        [.ev (.toolCall "a".data "alpha".data []),
         .ev (.toolCall "b".data "beta".data []),
         .ev .done]
    ∧ parseCharChunks c2Dec List.reverse false [c2Stream] =
        [.ev (.toolCall "b".data "beta".data []),
         .ev (.toolCall "a".data "alpha".data []),
         .ev .done]
    ∧ parseCharChunks c2Dec List.reverse false [c2Stream]
        ≠ parseCharChunks c2Dec id false [c2Stream] := by
  refine ⟨fun l => List.reverse_perm l, by decide, by decide, by decide⟩

/-! ### C4/C5 machinery: match positions, line starts, range bounds -/

theorem isPrefixOf_nil_false (pat : List Char) (h : pat ≠ []) :
    pat.isPrefixOf ([] : List Char) = false := by
  cases pat with
  | nil => exact absurd rfl h
  | cons c rest => rfl

theorem matchIndicesGo_mem (pat : List Char) :
    ∀ (fuel : Nat) (hs : List Char) (i s : Nat),
    s ∈ matchIndicesGo pat fuel hs i →
    ∃ j, s = i + j ∧ pat.isPrefixOf (hs.drop j) = true
  | 0, _, _, _, h => by simp [matchIndicesGo] at h
  | fuel + 1, [], _, _, h => by simp [matchIndicesGo] at h
  | fuel + 1, c :: rest, i, s, h => by
    rw [matchIndicesGo] at h
    by_cases hp : pat.isPrefixOf (c :: rest) = true
    · rw [if_pos hp] at h
      rcases List.mem_cons.mp h with h | h
      · exact ⟨0, by omega, hp⟩
      · obtain ⟨j, hj, hpre⟩ := matchIndicesGo_mem pat fuel _ _ _ h
        refine ⟨pat.length + j, by omega, ?_⟩
        rw [List.drop_drop] at hpre
        exact hpre
    · rw [if_neg hp] at h
      obtain ⟨j, hj, hpre⟩ := matchIndicesGo_mem pat fuel _ _ _ h
      exact ⟨1 + j, by omega, by rw [← List.drop_drop]; exact hpre⟩

theorem matchIndices_mem (content pat : List Char) (hpat : ¬pat.isEmpty = true)
    (s : Nat) (h : s ∈ matchIndices content pat) :
    pat.isPrefixOf (content.drop s) = true := by
  unfold matchIndices at h
  rw [if_neg hpat] at h
  obtain ⟨j, hj, hpre⟩ := matchIndicesGo_mem pat content.length content 0 s h
  rw [hj, Nat.zero_add]
  exact hpre

theorem matchIndicesGo_nil_iff (pat : List Char) (hpat : pat ≠ []) :
    ∀ (fuel : Nat) (hs : List Char) (i : Nat), hs.length ≤ fuel →
    (matchIndicesGo pat fuel hs i = []
      ↔ ∀ j, pat.isPrefixOf (hs.drop j) = false)
  | 0, hs, i, hlen => by
    have hnil : hs = [] := List.length_eq_zero.mp (Nat.le_zero.mp hlen)
    subst hnil
    simp only [matchIndicesGo, List.drop_nil, true_iff]
    intro j
    exact isPrefixOf_nil_false pat hpat
  | fuel + 1, [], i, hlen => by
    simp only [matchIndicesGo, List.drop_nil, true_iff]
    intro j
    exact isPrefixOf_nil_false pat hpat
  | fuel + 1, c :: rest, i, hlen => by
    rw [matchIndicesGo]
    by_cases hp : pat.isPrefixOf (c :: rest) = true
    · rw [if_pos hp]
      constructor
      · intro h; cases h
      · intro hall
        have := hall 0
        rw [List.drop_zero] at this
        rw [hp] at this
        cases this
    · rw [if_neg hp]
      have hlen' : rest.length ≤ fuel := by
        simp only [List.length_cons] at hlen
        omega
      rw [matchIndicesGo_nil_iff pat hpat fuel rest (i + 1) hlen']
      constructor
      · intro hall j
        cases j with
        | zero =>
          rw [List.drop_zero]
          exact Bool.eq_false_iff.mpr hp
        | succ j =>
          exact hall j
      · intro hall j
        exact hall (j + 1)

theorem occurrencePositions_nil_iff (content pat : List Char) (hpat : pat ≠ []) :
    occurrencePositions content pat = []
      ↔ ∀ j, pat.isPrefixOf (content.drop j) = false := by
  unfold occurrencePositions
  rw [List.filter_eq_nil_iff]
  constructor
  · intro hall j
    by_cases hj : j < content.length + 1
    · have := hall j (List.mem_range.mpr hj)
      exact Bool.eq_false_iff.mpr this
    · have hdrop : content.drop j = [] := by
        apply List.drop_eq_nil_of_le
        omega
      rw [hdrop]
      exact isPrefixOf_nil_false pat hpat
  · intro hall j hjr
    rw [hall j]
    simp

theorem matchIndices_nil_iff_occ (content pat : List Char) (hpat : pat ≠ []) :
    matchIndices content pat = [] ↔ occurrencePositions content pat = [] := by
  have hpe : ¬pat.isEmpty = true := by
    cases pat with
    | nil => exact absurd rfl hpat
    | cons c r => simp [List.isEmpty]
  unfold matchIndices
  rw [if_neg hpe]
  rw [matchIndicesGo_nil_iff pat hpat content.length content 0 (Nat.le_refl _)]
  rw [occurrencePositions_nil_iff content pat hpat]

theorem lineStartsGo_mem_bounds :
    ∀ (hs : List Char) (i : Nat) (x : Nat), x ∈ lineStartsGo hs i →
    i < x ∧ x ≤ i + hs.length
  | [], i, x, h => by simp [lineStartsGo] at h
  | c :: rest, i, x, h => by
    rw [lineStartsGo] at h
    by_cases hc : c = '\n'
    · rw [if_pos hc] at h
      rcases List.mem_cons.mp h with h | h
      · subst h
        simp
      · have := lineStartsGo_mem_bounds rest (i + 1) x h
        simp only [List.length_cons]
        omega
    · rw [if_neg hc] at h
      have := lineStartsGo_mem_bounds rest (i + 1) x h
      simp only [List.length_cons]
      omega

theorem lineStartsGo_pairwise :
    ∀ (hs : List Char) (i : Nat), List.Pairwise (· < ·) (lineStartsGo hs i)
  | [], i => by simp [lineStartsGo]
  | c :: rest, i => by
    rw [lineStartsGo]
    by_cases hc : c = '\n'
    · rw [if_pos hc]
      refine List.pairwise_cons.mpr ⟨?_, lineStartsGo_pairwise rest (i + 1)⟩
      intro x hx
      exact (lineStartsGo_mem_bounds rest (i + 1) x hx).1
    · rw [if_neg hc]
      exact lineStartsGo_pairwise rest (i + 1)

theorem compute_line_starts_pairwise (content : List Char) :
    List.Pairwise (· < ·) (compute_line_starts content) := by
  unfold compute_line_starts
  refine List.pairwise_cons.mpr ⟨?_, lineStartsGo_pairwise content 0⟩
  intro x hx
  exact (lineStartsGo_mem_bounds content 0 x hx).1

theorem compute_line_starts_mem_le (content : List Char) (x : Nat)
    (h : x ∈ compute_line_starts content) : x ≤ content.length := by
  unfold compute_line_starts at h
  rcases List.mem_cons.mp h with h | h
  · omega
  · have := lineStartsGo_mem_bounds content 0 x h
    omega

theorem splitOnNl_length_lineStarts :
    ∀ (content : List Char) (i : Nat),
    (splitOnNl content).length = (lineStartsGo content i).length + 1
  | [], i => rfl
  | c :: rest, i => by
    rw [splitOnNl, lineStartsGo]
    by_cases hc : c = '\n'
    · rw [if_pos hc, if_pos hc]
      simp only [List.length_cons]
      rw [splitOnNl_length_lineStarts rest (i + 1)]
    · rw [if_neg hc, if_neg hc]
      have h := splitOnNl_length_lineStarts rest (i + 1)
      cases hs : splitOnNl rest with
      | nil => exact absurd hs (splitOnNl_ne_nil rest)
      | cons l ls =>
        rw [hs] at h
        simpa using h

theorem compute_line_starts_length (content : List Char) :
    (compute_line_starts content).length = (splitOnNl content).length := by
  unfold compute_line_starts
  rw [splitOnNl_length_lineStarts content 0]
  rfl

theorem pairwise_lt_getD_le (l : List Nat) (hp : List.Pairwise (· < ·) l)
    (j k : Nat) (hjk : j ≤ k) (hk : k < l.length) :
    l.getD j 0 ≤ l.getD k 0 := by
  rcases Nat.lt_or_ge j k with hlt | hge
  · have hj : j < l.length := Nat.lt_trans hlt hk
    rw [List.getD_eq_getElem l 0 hj, List.getD_eq_getElem l 0 hk]
    exact Nat.le_of_lt (List.pairwise_iff_getElem.mp hp j k hj hk hlt)
  · have : j = k := Nat.le_antisymm hjk hge
    rw [this]

theorem getD_mem_of_lt (l : List Nat) (k : Nat) (hk : k < l.length) :
    l.getD k 0 ∈ l := by
  rw [List.getD_eq_getElem l 0 hk]
  exact List.getElem_mem hk

theorem splitOnNl_length_pos (s : List Char) : 1 ≤ (splitOnNl s).length := by
  cases hs : splitOnNl s with
  | nil => exact absurd hs (splitOnNl_ne_nil s)
  | cons l ls => simp

theorem fuzzyMatches_mem_bounds (content old_text : List Char)
    (r : Nat × Nat) (h : r ∈ fuzzyMatches content old_text) :
    r.1 ≤ r.2 ∧ r.2 ≤ content.length := by
  unfold fuzzyMatches at h
  simp only [List.mem_map, List.mem_filter, List.mem_range] at h
  obtain ⟨i, ⟨hir, _⟩, hr⟩ := h
  have hol : 1 ≤ (splitOnNl old_text).length := splitOnNl_length_pos old_text
  have hlines : 1 ≤ (splitOnNl content).length := splitOnNl_length_pos content
  have hLS : (compute_line_starts content).length = (splitOnNl content).length :=
    compute_line_starts_length content
  have hi : i < (compute_line_starts content).length := by omega
  have h1le : (compute_line_starts content).getD i 0 ≤ content.length :=
    compute_line_starts_mem_le content _ (getD_mem_of_lt _ i hi)
  subst hr
  dsimp only
  by_cases hcase :
      i + (splitOnNl old_text).length < (compute_line_starts content).length
  · rw [if_pos hcase]
    constructor
    · exact pairwise_lt_getD_le _ (compute_line_starts_pairwise content) i
        (i + (splitOnNl old_text).length) (by omega) hcase
    · exact compute_line_starts_mem_le content _ (getD_mem_of_lt _ _ hcase)
  · rw [if_neg hcase]
    exact ⟨h1le, Nat.le_refl _⟩

theorem resolve_ok_bounds (content : List Char) (edit : EditOperation)
    (hold : ¬edit.old_text.isEmpty = true) (s e : Nat)
    (h : resolve_edit_range content edit = .ok (s, e)) :
    s ≤ e ∧ e ≤ content.length := by
  unfold resolve_edit_range at h
  dsimp only at h
  cases hm : matchIndices content edit.old_text with
  | nil =>
    rw [hm] at h
    dsimp only at h
    by_cases hnorm : (normalize_text edit.old_text).isEmpty = true
    · rw [if_pos hnorm] at h
      cases h
    · rw [if_neg hnorm] at h
      by_cases hguard : (splitOnNl edit.old_text).isEmpty = true
          ∨ (splitOnNl content).length < (splitOnNl edit.old_text).length
      · rw [if_pos hguard] at h
        cases h
      · rw [if_neg hguard] at h
        cases hf : fuzzyMatches content edit.old_text with
        | nil =>
          rw [hf] at h
          cases h
        | cons r rs =>
          cases rs with
          | nil =>
            rw [hf] at h
            dsimp only at h
            injection h with h
            subst h
            exact fuzzyMatches_mem_bounds content edit.old_text (s, e)
              (by rw [hf]; exact List.mem_cons_self _ _)
          | cons r2 rs2 =>
            rw [hf] at h
            cases h
  | cons s1 rest =>
    cases rest with
    | nil =>
      rw [hm] at h
      dsimp only at h
      injection h with h
      have hs1 : s1 = s ∧ s1 + edit.old_text.length = e := by
        constructor
        · exact congrArg Prod.fst h
        · exact congrArg Prod.snd h
      obtain ⟨hs1, he1⟩ := hs1
      subst hs1
      have hpre := matchIndices_mem content edit.old_text hold s1
        (by rw [hm]; exact List.mem_cons_self _ _)
      have hlen : edit.old_text.length ≤ (content.drop s1).length :=
        (List.isPrefixOf_iff_prefix.mp hpre).length_le
      rw [List.length_drop] at hlen
      have hpos : 1 ≤ edit.old_text.length := by
        cases ho : edit.old_text with
        | nil => rw [ho] at hold; exact absurd rfl hold
        | cons c cs => simp
      omega
    | cons s2 rest2 =>
      rw [hm] at h
      cases h

/-! ### C5: range resolution -/

/-- C5 (amended): for a non-empty `old_text`, range resolution is driven by
`str::match_indices`, the *non-overlapping* left-to-right scan: a unique
scan match yields its byte range (a genuine occurrence, in bounds); two or
more scan matches fail with `matches N locations` where `N` counts the
scan matches; the scan finds nothing exactly when `old_text` does not
occur in `content` at all, and then resolution falls back to the
whitespace-normalised line-window comparison — empty normalised `old_text`
fails `empty after normalization`, too few lines or zero matching windows
fail `old_text not found`, a unique window yields its range (in bounds),
several windows fail `matched multiple locations`.  (The claim's count of
"exact substring matches" is wrong for overlapping occurrences, see the
counterexample.) -/
theorem C5_range_resolution (content : List Char) (edit : EditOperation)
    (hold : edit.old_text ≠ []) :
    (matchIndices content edit.old_text = []
        ↔ occurrencePositions content edit.old_text = [])
    ∧ (∀ s, matchIndices content edit.old_text = [s] →
        resolve_edit_range content edit = .ok (s, s + edit.old_text.length)
        ∧ edit.old_text.isPrefixOf (content.drop s) = true
        ∧ s + edit.old_text.length ≤ content.length)
    ∧ (∀ s t rest, matchIndices content edit.old_text = s :: t :: rest →
        resolve_edit_range content edit
          = .error (.matchesMultiple (matchIndices content edit.old_text).length))
    ∧ (matchIndices content edit.old_text = [] →
        ¬(splitOnNl edit.old_text).isEmpty = true
        ∧ ((normalize_text edit.old_text).isEmpty = true →
            resolve_edit_range content edit = .error .emptyAfterNormalization)
        ∧ ((normalize_text edit.old_text).isEmpty = false →
            ((splitOnNl content).length < (splitOnNl edit.old_text).length →
              resolve_edit_range content edit = .error .notFound)
            ∧ (¬(splitOnNl content).length < (splitOnNl edit.old_text).length →
                (fuzzyMatches content edit.old_text = [] →
                  resolve_edit_range content edit = .error .notFound)
                ∧ (∀ r, fuzzyMatches content edit.old_text = [r] →
                    resolve_edit_range content edit = .ok r
                    ∧ r.1 ≤ r.2 ∧ r.2 ≤ content.length)
                ∧ (∀ r1 r2 rs,
                    fuzzyMatches content edit.old_text = r1 :: r2 :: rs →
                    resolve_edit_range content edit
                      = .error (.matchedMultipleWindows
                          (fuzzyMatches content edit.old_text).length))))) := by
  have hold' : ¬edit.old_text.isEmpty = true := by
    cases ho : edit.old_text with
    | nil => exact absurd ho hold
    | cons c cs => simp
  have hsne : ¬(splitOnNl edit.old_text).isEmpty = true := by
    cases hs : splitOnNl edit.old_text with
    | nil => exact absurd hs (splitOnNl_ne_nil edit.old_text)
    | cons l ls => simp
  refine ⟨matchIndices_nil_iff_occ content edit.old_text hold, ?_, ?_, ?_⟩
  · intro s hm
    have hres : resolve_edit_range content edit
        = .ok (s, s + edit.old_text.length) := by
      unfold resolve_edit_range
      dsimp only
      rw [hm]
    have hpre := matchIndices_mem content edit.old_text hold' s
      (by rw [hm]; exact List.mem_cons_self _ _)
    have hlen : edit.old_text.length ≤ (content.drop s).length :=
      (List.isPrefixOf_iff_prefix.mp hpre).length_le
    rw [List.length_drop] at hlen
    have hpos : 1 ≤ edit.old_text.length := by
      cases ho : edit.old_text with
      | nil => exact absurd ho hold
      | cons c cs => simp
    exact ⟨hres, hpre, by omega⟩
  · intro s t rest hm
    rw [hm]
    unfold resolve_edit_range
    dsimp only
    rw [hm]
  · intro hm
    refine ⟨hsne, fun hnorm => ?_, fun hnorm => ⟨fun hlt => ?_, fun hge => ⟨?_, ?_, ?_⟩⟩⟩
    · unfold resolve_edit_range
      dsimp only
      rw [hm]
      dsimp only
      rw [if_pos hnorm]
    · unfold resolve_edit_range
      dsimp only
      rw [hm]
      dsimp only
      rw [if_neg (by rw [hnorm]; simp)]
      rw [if_pos (Or.inr hlt)]
    · intro hf
      unfold resolve_edit_range
      dsimp only
      rw [hm]
      dsimp only
      rw [if_neg (by rw [hnorm]; simp)]
      rw [if_neg (by push_neg; exact ⟨hsne, Nat.le_of_not_lt hge⟩)]
      rw [hf]
    · intro r hf
      have hres : resolve_edit_range content edit = .ok r := by
        unfold resolve_edit_range
        dsimp only
        rw [hm]
        dsimp only
        rw [if_neg (by rw [hnorm]; simp)]
        rw [if_neg (by push_neg; exact ⟨hsne, Nat.le_of_not_lt hge⟩)]
        rw [hf]
      have hb := fuzzyMatches_mem_bounds content edit.old_text r
        (by rw [hf]; exact List.mem_cons_self _ _)
      exact ⟨hres, hb⟩
    · intro r1 r2 rs hf
      rw [hf]
      unfold resolve_edit_range
      dsimp only
      rw [hm]
      dsimp only
      rw [if_neg (by rw [hnorm]; simp)]
      rw [if_neg (by push_neg; exact ⟨hsne, Nat.le_of_not_lt hge⟩)]
      rw [hf]

/-- C5 witness: in `ab`, `old_text = "b"` has the unique scan match at
position 1 and resolves to the byte range `[1, 2)`. -/
theorem C5_range_resolution_witness :
    ("b".data ≠ ([] : List Char))
    ∧ (resolve_edit_range "ab".data ⟨"b".data, "X".data⟩ = .ok (1, 2)
       ∧ ("b".data).isPrefixOf ("ab".data.drop 1) = true
       ∧ 1 + "b".data.length ≤ "ab".data.length) :=
  ⟨by decide,
   (C5_range_resolution "ab".data ⟨"b".data, "X".data⟩ (by decide)).2.1 1 (by decide)⟩

/-- C5 counterexample to the claim's occurrence counting: in `aaa` the
substring `aa` occurs at the two positions 0 and 1, so the claim requires
the `matches 2 locations` failure; but `match_indices` scans
non-overlapping matches only, finds exactly one, and the edit resolves to
`[0, 2)`. -/
theorem C5_overlap_counterexample :
    occurrencePositions "aaa".data "aa".data = [0, 1]
    ∧ matchIndices "aaa".data "aa".data = [0]
    ∧ resolve_edit_range "aaa".data ⟨"aa".data, "X".data⟩ = .ok (0, 2) := by
  refine ⟨by decide, by decide, by decide⟩

/-! ### C4 machinery: sorting, conflict scan, splice equivalence -/

theorem applyResolved_cons (content : List Char) (e : ResolvedEdit)
    (rest : List ResolvedEdit) :
    applyResolved content (e :: rest)
      = replaceRange (applyResolved content rest) e.start e.stop e.new_text := by
  unfold applyResolved
  rw [List.reverse_cons, List.foldl_append]
  rfl

theorem spliceEdits_drop (content : List Char) :
    ∀ (l : List ResolvedEdit) (k : Nat),
    (∀ r, l.head? = some r → k ≤ r.start ∧ r.start ≤ content.length) →
    (spliceEdits content 0 l).drop k = spliceEdits content k l
  | [], k, _ => by
    show (content.drop 0).drop k = content.drop k
    rw [List.drop_zero]
  | r :: rs, k, hh => by
    obtain ⟨hk, hr⟩ := hh r rfl
    show ((content.take r.start).drop 0 ++ r.new_text
        ++ spliceEdits content r.stop rs).drop k
      = (content.take r.start).drop k ++ r.new_text ++ spliceEdits content r.stop rs
    rw [List.drop_zero]
    rw [List.append_assoc]
    rw [List.drop_append_of_le_length (by rw [List.length_take]; omega)]
    rw [List.append_assoc]

theorem spliceEdits_take (content : List Char) (l : List ResolvedEdit) (k : Nat)
    (_hk : k ≤ content.length)
    (hh : ∀ r, l.head? = some r → k ≤ r.start ∧ r.start ≤ content.length) :
    (spliceEdits content 0 l).take k = content.take k := by
  cases l with
  | nil =>
    show (content.drop 0).take k = content.take k
    rw [List.drop_zero]
  | cons r rs =>
    obtain ⟨hkr, hr⟩ := hh r rfl
    show ((content.take r.start).drop 0 ++ r.new_text
        ++ spliceEdits content r.stop rs).take k = content.take k
    rw [List.drop_zero]
    rw [List.append_assoc]
    rw [List.take_append_of_le_length (by rw [List.length_take]; omega)]
    rw [List.take_take]
    rw [Nat.min_eq_left hkr]

theorem applyResolved_eq_splice (content : List Char) :
    ∀ (l : List ResolvedEdit),
    List.Chain' (fun a b : ResolvedEdit => a.stop ≤ b.start) l →
    (∀ e ∈ l, e.start ≤ e.stop ∧ e.stop ≤ content.length) →
    applyResolved content l = spliceEdits content 0 l
  | [], _, _ => rfl
  | e :: rest, hchain, hb => by
    have hchain' := hchain.tail
    have hb' : ∀ x ∈ rest, x.start ≤ x.stop ∧ x.stop ≤ content.length :=
      fun x hx => hb x (List.mem_cons_of_mem e hx)
    obtain ⟨hse, hec⟩ := hb e (List.mem_cons_self e rest)
    have hhead : ∀ r, rest.head? = some r →
        e.stop ≤ r.start ∧ r.start ≤ content.length := by
      intro r hhd
      cases rest with
      | nil => cases hhd
      | cons r0 rs0 =>
        injection hhd with hhd
        obtain ⟨h1, h2⟩ := hb' r0 (List.mem_cons_self _ _)
        rw [← hhd]
        exact ⟨(List.chain'_cons.mp hchain).1, by omega⟩
    have hhead' : ∀ r, rest.head? = some r →
        e.start ≤ r.start ∧ r.start ≤ content.length := by
      intro r hhd
      obtain ⟨h1, h2⟩ := hhead r hhd
      exact ⟨by omega, h2⟩
    rw [applyResolved_cons, applyResolved_eq_splice content rest hchain' hb']
    unfold replaceRange
    show _ = (content.take e.start).drop 0 ++ e.new_text
      ++ spliceEdits content e.stop rest
    rw [List.drop_zero]
    rw [spliceEdits_take content rest e.start (by omega) hhead']
    rw [spliceEdits_drop content rest e.stop hhead]

theorem insertByStart_perm (x : ResolvedEdit) :
    ∀ (l : List ResolvedEdit), (insertByStart x l).Perm (x :: l)
  | [] => List.Perm.refl _
  | y :: ys => by
    rw [insertByStart]
    by_cases h : y.start < x.start
    · rw [if_pos h]
      exact ((insertByStart_perm x ys).cons y).trans (List.Perm.swap x y ys)
    · rw [if_neg h]

theorem sortByStart_perm : ∀ (l : List ResolvedEdit), (sortByStart l).Perm l
  | [] => List.Perm.refl _
  | x :: xs => by
    rw [sortByStart]
    exact (insertByStart_perm x (sortByStart xs)).trans ((sortByStart_perm xs).cons x)

theorem insertByStart_sorted (x : ResolvedEdit) :
    ∀ (l : List ResolvedEdit),
    List.Sorted (fun a b : ResolvedEdit => a.start ≤ b.start) l →
    List.Sorted (fun a b : ResolvedEdit => a.start ≤ b.start) (insertByStart x l)
  | [], _ => List.sorted_singleton x
  | y :: ys, hs => by
    rw [insertByStart]
    rw [List.sorted_cons] at hs
    obtain ⟨hy, hys⟩ := hs
    by_cases h : y.start < x.start
    · rw [if_pos h]
      rw [List.sorted_cons]
      refine ⟨?_, insertByStart_sorted x ys hys⟩
      intro z hz
      rcases List.mem_cons.mp ((insertByStart_perm x ys).mem_iff.mp hz) with hz | hz
      · subst hz
        exact Nat.le_of_lt h
      · exact hy z hz
    · rw [if_neg h]
      rw [List.sorted_cons]
      refine ⟨?_, List.sorted_cons.mpr ⟨hy, hys⟩⟩
      intro z hz
      rcases List.mem_cons.mp hz with hz | hz
      · subst hz
        exact Nat.le_of_not_lt h
      · exact Nat.le_trans (Nat.le_of_not_lt h) (hy z hz)

theorem sortByStart_sorted : ∀ (l : List ResolvedEdit),
    List.Sorted (fun a b : ResolvedEdit => a.start ≤ b.start) (sortByStart l)
  | [] => List.sorted_nil
  | x :: xs => by
    rw [sortByStart]
    exact insertByStart_sorted x (sortByStart xs) (sortByStart_sorted xs)

theorem findConflict_none_chain : ∀ (l : List ResolvedEdit),
    findConflict l = none →
    List.Chain' (fun a b : ResolvedEdit => a.stop ≤ b.start) l
  | [], _ => List.chain'_nil
  | [a], _ => List.chain'_singleton a
  | a :: b :: rest, h => by
    rw [findConflict] at h
    by_cases hab : a.stop > b.start
    · rw [if_pos hab] at h
      cases h
    · rw [if_neg hab] at h
      exact List.chain'_cons.mpr
        ⟨Nat.le_of_not_lt hab, findConflict_none_chain (b :: rest) h⟩

theorem chain_head_le : ∀ (l : List ResolvedEdit) (a : ResolvedEdit),
    List.Chain' (fun a b : ResolvedEdit => a.stop ≤ b.start) (a :: l) →
    (∀ e ∈ l, e.start ≤ e.stop) →
    ∀ b ∈ l, a.stop ≤ b.start
  | [], a, _, _, b, hb => by cases hb
  | r :: rs, a, hch, hbd, b, hmem => by
    have har : a.stop ≤ r.start := (List.chain'_cons.mp hch).1
    rcases List.mem_cons.mp hmem with h | h
    · subst h
      exact har
    · have hr : r.start ≤ r.stop := hbd r (List.mem_cons_self r rs)
      have := chain_head_le rs r (List.chain'_cons.mp hch).2
        (fun e he => hbd e (List.mem_cons_of_mem r he)) b h
      omega

theorem chain_stop_start_pairwise : ∀ (l : List ResolvedEdit),
    List.Chain' (fun a b : ResolvedEdit => a.stop ≤ b.start) l →
    (∀ e ∈ l, e.start ≤ e.stop) →
    List.Pairwise (fun a b : ResolvedEdit => a.stop ≤ b.start) l
  | [], _, _ => List.Pairwise.nil
  | a :: rest, hch, hbd => by
    refine List.pairwise_cons.mpr
      ⟨chain_head_le rest a hch
        (fun e he => hbd e (List.mem_cons_of_mem a he)), ?_⟩
    exact chain_stop_start_pairwise rest hch.tail
      (fun e he => hbd e (List.mem_cons_of_mem a he))

theorem resolveEditsGo_bounds (content : List Char) :
    ∀ (l : List (Nat × EditOperation)) (resolved : List ResolvedEdit),
    resolveEditsGo content l = .ok resolved →
    ∀ e ∈ resolved, e.start ≤ e.stop ∧ e.stop ≤ content.length
  | [], resolved, h => by
    injection h with h
    subst h
    intro e he
    cases he
  | (index, edit) :: rest, resolved, h => by
    rw [resolveEditsGo] at h
    by_cases htrim : (trimBoth edit.old_text).isEmpty = true
    · rw [if_pos htrim] at h
      cases h
    · rw [if_neg htrim] at h
      cases hr : resolve_edit_range content edit with
      | error e0 =>
        rw [hr] at h
        cases h
      | ok se =>
        obtain ⟨s0, e0⟩ := se
        rw [hr] at h
        dsimp only at h
        cases hrest : resolveEditsGo content rest with
        | error err =>
          rw [hrest] at h
          cases h
        | ok rs =>
          rw [hrest] at h
          dsimp only at h
          injection h with h
          subst h
          intro e he
          rcases List.mem_cons.mp he with he | he
          · subst he
            have hone : ¬edit.old_text.isEmpty = true := by
              intro hco
              have : edit.old_text = [] := by
                cases ho : edit.old_text with
                | nil => rfl
                | cons c cs => rw [ho] at hco; cases hco
              rw [this] at htrim
              exact htrim rfl
            exact resolve_ok_bounds content edit hone s0 e0 hr
          · exact resolveEditsGo_bounds content rest rs hrest e he

/-! ### C4: edit application -/

/-- C4: whenever `execute_edit_file`'s edit mode accepts a set of edits,
the resolved ranges sorted by start are a permutation of the resolved
list, in-bounds, and pairwise non-overlapping (an overlap instead fails
with `conflict` naming both original edit indices — second conjunct); the
edits are applied by `replace_range` in decreasing start order
(`applyResolved` folds the reversed sorted list), and the result equals
the splice description: each replaced range holds its `new_text` and
everything outside the replaced ranges is the original content,
unchanged. -/
theorem C4_edit_application :
    (∀ (content : List Char) (edits : List EditOperation) (result : List Char),
      apply_edits content edits = .ok result →
      ∃ resolved, resolveEditsGo content edits.enum = .ok resolved
        ∧ findConflict (sortByStart resolved) = none
        ∧ (sortByStart resolved).Perm resolved
        ∧ List.Sorted (fun a b : ResolvedEdit => a.start ≤ b.start)
            (sortByStart resolved)
        ∧ (∀ e ∈ sortByStart resolved, e.start ≤ e.stop ∧ e.stop ≤ content.length)
        ∧ List.Pairwise (fun a b : ResolvedEdit => a.stop ≤ b.start)
            (sortByStart resolved)
        ∧ result = applyResolved content (sortByStart resolved)
        ∧ result = spliceEdits content 0 (sortByStart resolved))
    ∧ (∀ (content : List Char) (edits : List EditOperation)
         (resolved : List ResolvedEdit) (i j : Nat),
        edits.isEmpty = false →
        resolveEditsGo content edits.enum = .ok resolved →
        findConflict (sortByStart resolved) = some (i, j) →
        apply_edits content edits = .error (.conflict i j)) := by
  constructor
  · intro content edits result hok
    unfold apply_edits at hok
    by_cases he : edits.isEmpty = true
    · rw [if_pos he] at hok
      cases hok
    · rw [if_neg he] at hok
      cases hres : resolveEditsGo content edits.enum with
      | error e0 =>
        rw [hres] at hok
        cases hok
      | ok resolved =>
        rw [hres] at hok
        dsimp only at hok
        cases hc : findConflict (sortByStart resolved) with
        | some ij =>
          obtain ⟨i, j⟩ := ij
          rw [hc] at hok
          cases hok
        | none =>
          rw [hc] at hok
          dsimp only at hok
          injection hok with hok
          have hbounds0 := resolveEditsGo_bounds content edits.enum resolved hres
          have hbounds : ∀ e ∈ sortByStart resolved,
              e.start ≤ e.stop ∧ e.stop ≤ content.length :=
            fun e heM => hbounds0 e ((sortByStart_perm resolved).mem_iff.mp heM)
          have hchain := findConflict_none_chain _ hc
          refine ⟨resolved, rfl, hc, sortByStart_perm resolved,
            sortByStart_sorted resolved, hbounds,
            chain_stop_start_pairwise _ hchain (fun e heM => (hbounds e heM).1),
            hok.symm, ?_⟩
          rw [← hok]
          exact applyResolved_eq_splice content _ hchain hbounds
  · intro content edits resolved i j hne hres hconf
    unfold apply_edits
    rw [if_neg (by rw [hne]; intro hco; cases hco)]
    rw [hres]
    dsimp only
    rw [hconf]

/-- C4 witness: on `abc`, replacing the unique `b` with `XY` is accepted
with the properties above, and the overlapping pair `ab`/`bc` is rejected
as `conflict 0 1`. -/
theorem C4_edit_application_witness :
    (∃ resolved,
      resolveEditsGo "abc".data [(⟨"b".data, "XY".data⟩ : EditOperation)].enum
          = .ok resolved
      ∧ findConflict (sortByStart resolved) = none
      ∧ (sortByStart resolved).Perm resolved
      ∧ List.Sorted (fun a b : ResolvedEdit => a.start ≤ b.start)
          (sortByStart resolved)
      ∧ (∀ e ∈ sortByStart resolved,
          e.start ≤ e.stop ∧ e.stop ≤ "abc".data.length)
      ∧ List.Pairwise (fun a b : ResolvedEdit => a.stop ≤ b.start)
          (sortByStart resolved)
      ∧ "aXYc".data = applyResolved "abc".data (sortByStart resolved)
      ∧ "aXYc".data = spliceEdits "abc".data 0 (sortByStart resolved))
    ∧ apply_edits "abc".data
        [(⟨"ab".data, "X".data⟩ : EditOperation), ⟨"bc".data, "Y".data⟩]
      = .error (.conflict 0 1) :=
  ⟨C4_edit_application.1 "abc".data [⟨"b".data, "XY".data⟩] "aXYc".data (by decide),
   C4_edit_application.2 "abc".data [⟨"ab".data, "X".data⟩, ⟨"bc".data, "Y".data⟩]
     [⟨0, 0, 2, "ab".data, "X".data⟩, ⟨1, 1, 3, "bc".data, "Y".data⟩] 0 1
     (by decide) (by decide) (by decide)⟩

end VoidDesk
